import Mathlib

/-!
# Verification of the Go-binding schema compiler core (`pkg/codegen/go/gen.go`)

This file gives a shallow embedding of the type-resolution, naming-resolution,
package-partitioning, optionality-propagation and binding-synthesis logic of the
Go code generator, and proves properties of that embedding.

Conventions of the embedding:
* Go strings are Lean `String`s; the Go standard-library string helpers that the
  code uses (`strings.Split` with a one-character separator, `strings.ToLower`,
  `strings.Replace(s, old, new, -1)`, `strings.TrimSuffix`, `strings.Contains`)
  are re-implemented below on `List Char` so that they compute by kernel
  reduction.
* `contract.Assert` failures and `panic` are modelled by `Option`: a `none`
  result is a fatal, non-recoverable abort.
* Go maps used as registries (`names`, `renamed`, `packages`, the module
  override maps) are association lists / membership lists; only lookup,
  membership and insertion are used by the source, so the representation is
  faithful.
-/

namespace PulumiGoGen

/-! ## Go string helpers -/

/-- `strings.Split(s, sep)` for a single-character separator, on char lists. -/
def splitCharsAux (sep : Char) : List Char → List Char → List (List Char)
  | [], acc => [acc.reverse]
  | c :: rest, acc =>
    if c = sep then acc.reverse :: splitCharsAux sep rest []
    else splitCharsAux sep rest (c :: acc)

/-- `strings.Split(tok, sep)` for a single-character separator. -/
def goSplit (s : String) (sep : Char) : List String :=
  (splitCharsAux sep s.data []).map String.mk

/-- `strings.ToLower` (ASCII case folding, as used on identifiers here). -/
def goToLower (s : String) : String :=
  String.mk (s.data.map Char.toLower)

/-- Is `pat` a prefix of `s`? (used by the `strings.Replace` model). -/
def isPrefixList : List Char → List Char → Bool
  | [], _ => true
  | _ :: _, [] => false
  | p :: ps, c :: cs => p = c && isPrefixList ps cs

/-- `strings.Replace(s, old, new, -1)` on char lists: replace every
non-overlapping occurrence of `pat` (scanning left to right) by `rep`.
The empty pattern is never used by the source; we treat it as no-op. -/
def replaceChars (pat rep : List Char) : List Char → List Char
  | [] => []
  | c :: rest =>
    if pat ≠ [] ∧ isPrefixList pat (c :: rest) then
      rep ++ replaceChars pat rep ((c :: rest).drop pat.length)
    else
      c :: replaceChars pat rep rest
termination_by l => l.length
decreasing_by
  · simp only [List.length_drop]
    have hp : pat.length ≠ 0 := by
      intro h
      exact (by assumption : pat ≠ [] ∧ _).1 (List.length_eq_zero.mp h)
    simp only [List.length_cons]
    omega
  · simp

/-- `strings.Replace(s, old, new, -1)`. -/
def goReplace (s pat rep : String) : String :=
  String.mk (replaceChars pat.data rep.data s.data)

/-- `strings.TrimSuffix(s, suffix)`. -/
def goTrimSuffix (s suffix : String) : String :=
  if suffix.data.isSuffixOf s.data then
    String.mk (s.data.take (s.data.length - suffix.data.length))
  else s

/-- `strings.Contains(s, sub)` for a single-character `sub` (the source only
uses `strings.Contains(resType, ".")`). -/
def goContainsChar (s : String) (c : Char) : Bool :=
  s.data.contains c

/-- `strings.HasPrefix(s, pre)`. -/
def goHasPre (s pre : String) : Bool :=
  isPrefixList pre.data s.data

/-! ## `Title` and `camel` (gen.go lines 46-74) -/

/-- Char-list body of `Title`: upper-case the first rune, recursively stripping
a leading `$`. -/
def titleChars : List Char → List Char
  | [] => []
  | c :: rest => if c = '$' then titleChars rest else c.toUpper :: rest

/-- `Title` converts the input string to a title case where only the initial
letter is upper-cased, removing any `$`-prefix first (recursively). -/
def Title (s : String) : String :=
  String.mk (titleChars s.data)

/-- Char-list body of `camel`: lower-case each leading rune until the first
rune that is already lower-case, which is kept together with the rest. -/
def camelChars : List Char → List Char
  | [] => []
  | c :: rest => if c.isLower then c :: rest else c.toLower :: camelChars rest

/-- `camel` lower-cases the leading run of non-lower-case runes. -/
def camel (s : String) : String :=
  String.mk (camelChars s.data)

/-! ## Association lists (Go maps) -/

/-- Lookup in an association list, modelling a Go map read. -/
def alookup {α : Type} : List (String × α) → String → Option α
  | [], _ => none
  | e :: rest, key => if e.1 = key then some e.2 else alookup rest key

/-! ## Token resolution (gen.go lines 76-82, 201-214) -/

/-- Modelled from the spec: `schema.Package.TokenToModule` lives in the
external `codegen/schema` package, which is not part of this repository
snapshot.  Per §4.1 of the spec the token resolver "splits the token" into
exactly three colon-delimited components, the module path being the middle
one, and "fails (fatal, non-recoverable) if the token does not have exactly
three components".  This matches the in-repository helper `tokenToModule`
(gen.go lines 201-208), which asserts the component count and returns
`components[1]`. -/
def TokenToModule (tok : String) : Option String :=
  let components := goSplit tok ':'
  if components.length = 3 then some (components.getD 1 "") else none

/-- `tokenToModule` (gen.go lines 201-208): split, assert exactly three
components, return the module component.  `none` models the fatal
`contract.Assert` failure. -/
def tokenToModule (tok : String) : Option String :=
  let components := goSplit tok ':'
  if components.length = 3 then some (components.getD 1 "") else none

/-- `tokenToName` (gen.go lines 210-214). -/
def tokenToName (tok : String) : Option String :=
  let components := goSplit tok ':'
  if components.length = 3 then some (Title (components.getD 2 "")) else none

/-- `tokenToPackage` (gen.go lines 76-82): module of the token, overridden by
the module-to-package map when present, lower-cased. -/
def tokenToPackage (overrides : List (String × String)) (tok : String) :
    Option String :=
  (TokenToModule tok).map fun mod =>
    goToLower ((alookup overrides mod).getD mod)

/-! ## The per-namespace registry and the naming resolver
(gen.go `pkgContext`, lines 84-104, 128-199, 1337-1376) -/

/-- The mutable part of one `pkgContext`: the name registry (`names`, a
`codegen.StringSet`) and the rename map (`renamed`). -/
structure PkgState where
  names : List String
  renamed : List (String × String)
deriving DecidableEq, Repr

/-- The shared `packages` map (`map[string]*pkgContext`), restricted to the
mutable registries.  All contexts created by `generatePackageContextMap`
share one such map; the synthetic external contexts built by
`resolveObjectType`/`resolveResourceType` have a nil map instead. -/
abbrev GenState := List (String × PkgState)

/-- The immutable part of one `pkgContext`: the owning package's name,
the context's module, the `GoPackageInfo.ModuleToPackage` overrides, and
whether the context carries the shared `packages` map (false exactly for
the synthetic external-package contexts, whose `packages` field is nil).
`extModToPkg` models reading `ModuleToPackage` from an external package's
imported `GoPackageInfo`. -/
structure Ctx where
  pkgName : String
  mod : String
  modToPkg : List (String × String)
  usesSharedPackages : Bool
  extModToPkg : String → List (String × String)

/-- Add an identifier to a `codegen.StringSet` (`names.Add`). -/
def addName (names : List String) (n : String) : List String :=
  if names.contains n then names else names ++ [n]

/-- Update the registry of module `mod` inside the shared `packages` map. -/
def updateAt : GenState → String → (PkgState → PkgState) → GenState
  | [], _, _ => []
  | e :: st, mod, f =>
    if e.1 = mod then (e.1, f e.2) :: updateAt st mod f
    else e :: updateAt st mod f

/-- `codegen.StringSet.Has` (`names.Has`). -/
def hasName (names : List String) (n : String) : Bool :=
  names.contains n

/-- Shared body of `tokenToType` / `tokenToEnum`: resolve the collision
machinery for a candidate `name` in the namespace `mod`, adding `suffix`
when the candidate is already taken and no rename was recorded yet. -/
def resolveRenamed (ctx : Ctx) (st : GenState) (mod name suffix : String) :
    String × GenState :=
  match (if ctx.usesSharedPackages then alookup st mod else none) with
  | none => (name, st)
  | some modPkg =>
    match alookup modPkg.renamed name with
    | some newName => (newName, st)
    | none =>
      if hasName modPkg.names name then
        let newName := name ++ suffix
        (newName,
         updateAt st mod fun ps =>
           { names := addName ps.names newName,
             renamed := ps.renamed ++ [(name, newName)] })
      else (name, st)

/-- `pkgContext.tokenToType` (gen.go lines 128-168).  Splits the token
(fatal unless exactly three components), resolves its module, title-cases
the member name, applies the recorded rename or — on a collision with an
already-registered identifier — records and applies a fresh `Type`-suffixed
rename, and finally qualifies the identifier with the (separator-stripped)
foreign module when the token's module differs from the context's, dropping
any `-provider` substring. -/
def tokenToType (ctx : Ctx) (st : GenState) (tok : String) :
    Option (String × GenState) := do
  let components := goSplit tok ':'
  if components.length ≠ 3 then none else do
  let mod ← tokenToPackage ctx.modToPkg tok
  let name := Title (components.getD 2 "")
  let (name, st) := resolveRenamed ctx st mod name "Type"
  if mod = ctx.mod then
    some (name, st)
  else
    let mod := if mod = "" then components.getD 0 "" else mod
    some (goReplace (goReplace mod "/" "" ++ "." ++ name) "-provider" "", st)

/-- `pkgContext.tokenToEnum` (gen.go lines 1337-1376): as `tokenToType` but
with an `Enum` collision suffix and no `-provider` stripping. -/
def tokenToEnum (ctx : Ctx) (st : GenState) (tok : String) :
    Option (String × GenState) := do
  let components := goSplit tok ':'
  if components.length ≠ 3 then none else do
  let mod ← tokenToPackage ctx.modToPkg tok
  let name := Title (components.getD 2 "")
  let (name, st) := resolveRenamed ctx st mod name "Enum"
  if mod = ctx.mod then
    some (name, st)
  else
    let mod := if mod = "" then components.getD 0 "" else mod
    some (goReplace mod "/" "" ++ "." ++ name, st)

/-- `pkgContext.tokenToResource` (gen.go lines 170-199): stateless; a
`pulumi:providers:NAME` token resolves to `NAME.Provider`, otherwise the
title-cased member name, qualified by the foreign module when needed. -/
def tokenToResource (ctx : Ctx) (tok : String) : Option String := do
  let components := goSplit tok ':'
  if components.length ≠ 3 then none else do
  if components.getD 0 "" = "pulumi" ∧ components.getD 1 "" = "providers" then
    some (components.getD 2 "" ++ ".Provider")
  else do
    let mod ← tokenToPackage ctx.modToPkg tok
    let name := Title (components.getD 2 "")
    if mod = ctx.mod then
      some name
    else
      let mod := if mod = "" then components.getD 0 "" else mod
      some (goReplace mod "/" "" ++ "." ++ name)

/-! ## The schema type language (`schema.Type`)

Object and resource types are identified by their token; the identity of the
`schema.Package` that owns them (a pointer in Go) is modelled by the package
name, with `""` standing for a nil package pointer.  Union element lists and
the optional underlying type of a token type are part of one mutual inductive
so that the resolvers below are structurally recursive. -/

mutual

inductive SType where
  | boolT
  | intT
  | numberT
  | stringT
  | archiveT
  | assetT
  | jsonT
  | anyT
  | arrayT (elementType : SType)
  | mapT (elementType : SType)
  | objectT (pkgName : String) (token : String)
  | resourceT (pkgName : String) (token : String)
  | enumT (token : String) (elementType : SType)
  | tokenT (token : String) (underlying : OptSType)
  | unionT (elementTypes : STypeList)

inductive OptSType where
  | noneT
  | someT (t : SType)

inductive STypeList where
  | nil
  | cons (head : SType) (tail : STypeList)

end

/-- `isExternalReference` (gen.go lines 353-361): an object or resource type
belongs to a package other than the resolving context's, with both package
pointers non-nil. -/
def isExternalRef (ctx : Ctx) : SType → Bool
  | .objectT owner _ => owner ≠ "" && ctx.pkgName ≠ "" && owner ≠ ctx.pkgName
  | .resourceT owner _ => owner ≠ "" && ctx.pkgName ≠ "" && owner ≠ ctx.pkgName
  | _ => false

/-- The synthetic read-only context built for an external package in
`resolveObjectType` / `resolveResourceType` (gen.go lines 378-383, 406-411):
module `""`, the external package's `ModuleToPackage` overrides, and a nil
`packages` map. -/
def mkExtCtx (ctx : Ctx) (owner : String) : Ctx :=
  { pkgName := owner
    mod := ""
    modToPkg := ctx.extModToPkg owner
    usesSharedPackages := false
    extModToPkg := ctx.extModToPkg }

/-- `resolveObjectType` (gen.go lines 395-413).  For a local object this is
`tokenToType`; for an external one, `extPkgCtx.plainType(t, false)` is inlined:
with the synthetic context the object is no longer external, so it reduces to
`tokenToType` in that context (whose nil `packages` map makes it stateless). -/
def resolveObjectType (ctx : Ctx) (st : GenState) (owner tok : String) :
    Option (String × GenState) :=
  if isExternalRef ctx (.objectT owner tok) then
    tokenToType (mkExtCtx ctx owner) st tok
  else
    tokenToType ctx st tok

/-- `resolveResourceType` (gen.go lines 367-389). -/
def resolveResourceType (ctx : Ctx) (owner tok : String) : Option String :=
  if isExternalRef ctx (.resourceT owner tok) then do
    let resType ← tokenToResource (mkExtCtx ctx owner) tok
    if !goContainsChar resType '.' then
      some (owner ++ "." ++ resType)
    else
      some resType
  else
    tokenToResource ctx tok

/-- Optionality wrapper of the plain representation: a `*` pointer prefix. -/
def optStar (optional : Bool) (typ : String) : String :=
  if optional then "*" ++ typ else typ

/-- Optionality suffix of the input representation. -/
def inSuffix (optional : Bool) (typ : String) : String :=
  if optional then typ ++ "PtrInput" else typ ++ "Input"

/-- Optionality suffix of the output representation. -/
def outSuffix (optional : Bool) (typ : String) : String :=
  if optional then typ ++ "PtrOutput" else typ ++ "Output"

/-! ### `plainType` (gen.go lines 223-287) -/

mutual

/-- `pkgContext.plainType`: the bare-value representation of a schema type.
Note that the `optional` pointer prefix is applied only by the cases that
fall through the type switch; arrays, maps, archives, assets, json/any and
unions return early and ignore it. -/
def plainType (ctx : Ctx) (st : GenState) :
    SType → Bool → Option (String × GenState)
  | .enumT _ elem, optional => plainType ctx st elem optional
  | .arrayT elem, _ => do
    let star := if isExternalRef ctx elem then "*" else ""
    let (e, st') ← plainType ctx st elem false
    some ("[]" ++ star ++ e, st')
  | .mapT elem, _ => do
    let star := if isExternalRef ctx elem then "*" else ""
    let (e, st') ← plainType ctx st elem false
    some ("map[string]" ++ star ++ e, st')
  | .objectT owner tok, optional => do
    let (typ, st') ← resolveObjectType ctx st owner tok
    some (optStar optional typ, st')
  | .resourceT owner tok, optional => do
    let typ ← resolveResourceType ctx owner tok
    some (optStar optional typ, st)
  | .tokenT tok u, optional =>
    match u with
    | .someT und => plainType ctx st und optional
    | .noneT => do
      let (typ, st') ← tokenToType ctx st tok
      some (optStar optional typ, st')
  | .unionT elems, optional => plainUnion ctx st elems optional
  | .boolT, optional => some (optStar optional "bool", st)
  | .intT, optional => some (optStar optional "int", st)
  | .numberT, optional => some (optStar optional "float64", st)
  | .stringT, optional => some (optStar optional "string", st)
  | .archiveT, _ => some ("pulumi.Archive", st)
  | .assetT, _ => some ("pulumi.AssetOrArchive", st)
  | .jsonT, _ => some ("interface\x7b\x7d", st)
  | .anyT, _ => some ("interface\x7b\x7d", st)

/-- Union handling of `plainType`: the first enum alternative's element type
is used ("relaxed enum"); otherwise the universal `interface{}`. -/
def plainUnion (ctx : Ctx) (st : GenState) :
    STypeList → Bool → Option (String × GenState)
  | .nil, _ => some ("interface\x7b\x7d", st)
  | .cons h t, optional =>
    match h with
    | .enumT _ elem => plainType ctx st elem optional
    | _ => plainUnion ctx st t optional

end

/-! ### `inputType` (gen.go lines 289-351) -/

mutual

/-- `pkgContext.inputType`: the input-capability representation.  Enums are
themselves inputs (a `*` prefix when optional); arrays/maps rebuild the
element's input name with `ArrayInput`/`MapInput`; resources, unions and the
special scalars return early and ignore `optional`. -/
def inputType (ctx : Ctx) (st : GenState) :
    SType → Bool → Option (String × GenState)
  | .enumT tok _, optional => do
    let star := if optional then "*" else ""
    let (n, st') ← tokenToEnum ctx st tok
    some (star ++ n, st')
  | .arrayT elem, _ => do
    let (en, st') ← inputType ctx st elem false
    some (goTrimSuffix en "Input" ++ "ArrayInput", st')
  | .mapT elem, _ => do
    let (en, st') ← inputType ctx st elem false
    some (goTrimSuffix en "Input" ++ "MapInput", st')
  | .objectT owner tok, optional => do
    let (typ, st') ← resolveObjectType ctx st owner tok
    some (inSuffix optional typ, st')
  | .resourceT owner tok, _ => do
    let typ ← resolveResourceType ctx owner tok
    some (typ ++ "Input", st)
  | .tokenT tok u, optional =>
    match u with
    | .someT und => inputType ctx st und optional
    | .noneT => do
      let (typ, st') ← tokenToType ctx st tok
      some (inSuffix optional typ, st')
  | .unionT elems, optional => inputUnion ctx st elems optional
  | .boolT, optional => some (inSuffix optional "pulumi.Bool", st)
  | .intT, optional => some (inSuffix optional "pulumi.Int", st)
  | .numberT, optional => some (inSuffix optional "pulumi.Float64", st)
  | .stringT, optional => some (inSuffix optional "pulumi.String", st)
  | .archiveT, _ => some ("pulumi.ArchiveInput", st)
  | .assetT, _ => some ("pulumi.AssetOrArchiveInput", st)
  | .jsonT, _ => some ("pulumi.Input", st)
  | .anyT, _ => some ("pulumi.Input", st)

/-- Union handling of `inputType`: the first enum alternative's element type
is used at the same optionality; otherwise `pulumi.Input`. -/
def inputUnion (ctx : Ctx) (st : GenState) :
    STypeList → Bool → Option (String × GenState)
  | .nil, _ => some ("pulumi.Input", st)
  | .cons h t, optional =>
    match h with
    | .enumT _ elem => inputType ctx st elem optional
    | _ => inputUnion ctx st t optional

end

/-! ### `outputType` (gen.go lines 415-478) -/

mutual

/-- `pkgContext.outputType`: the output-capability representation. -/
def outputType (ctx : Ctx) (st : GenState) :
    SType → Bool → Option (String × GenState)
  | .enumT _ elem, optional => outputType ctx st elem optional
  | .arrayT elem, _ => do
    let (en, st') ← outputType ctx st elem false
    let en := goTrimSuffix en "Output"
    if en = "pulumi.Any" then some ("pulumi.ArrayOutput", st')
    else some (en ++ "ArrayOutput", st')
  | .mapT elem, _ => do
    let (en, st') ← outputType ctx st elem false
    let en := goTrimSuffix en "Output"
    if en = "pulumi.Any" then some ("pulumi.MapOutput", st')
    else some (en ++ "MapOutput", st')
  | .objectT owner tok, optional => do
    let (typ, st') ← resolveObjectType ctx st owner tok
    some (outSuffix optional typ, st')
  | .resourceT owner tok, _ => do
    let typ ← resolveResourceType ctx owner tok
    some (typ ++ "Output", st)
  | .tokenT tok u, optional =>
    match u with
    | .someT und => outputType ctx st und optional
    | .noneT => do
      let (typ, st') ← tokenToType ctx st tok
      some (outSuffix optional typ, st')
  | .unionT elems, optional => outputUnion ctx st elems optional
  | .boolT, optional => some (outSuffix optional "pulumi.Bool", st)
  | .intT, optional => some (outSuffix optional "pulumi.Int", st)
  | .numberT, optional => some (outSuffix optional "pulumi.Float64", st)
  | .stringT, optional => some (outSuffix optional "pulumi.String", st)
  | .archiveT, _ => some ("pulumi.ArchiveOutput", st)
  | .assetT, _ => some ("pulumi.AssetOrArchiveOutput", st)
  | .jsonT, _ => some ("pulumi.AnyOutput", st)
  | .anyT, _ => some ("pulumi.AnyOutput", st)

/-- Union handling of `outputType`. -/
def outputUnion (ctx : Ctx) (st : GenState) :
    STypeList → Bool → Option (String × GenState)
  | .nil, _ => some ("pulumi.AnyOutput", st)
  | .cons h t, optional =>
    match h with
    | .enumT _ elem => outputType ctx st elem optional
    | _ => outputUnion ctx st t optional

end

/-! ## Schema values, properties, resources -/

/-- A Go `interface{}` value as used for constants, defaults and constructor
arguments.  `vNil` is the nil interface / nil input; number values are kept
exact (only the literal `0.0` is ever inspected by the properties below). -/
inductive GoValue where
  | vNil
  | vBool (b : Bool)
  | vInt (n : Int)
  | vNumber (q : Rat)
  | vStr (s : String)
  | vStrArray (elems : List String)
deriving DecidableEq, Repr

/-- `schema.DefaultValue`: an optional literal and an ordered list of
environment-variable names. -/
structure DefaultValue where
  value : Option GoValue
  environment : List String
deriving DecidableEq, Repr

/-- `schema.Property`. -/
structure Property where
  name : String
  typ : SType
  isRequired : Bool
  secret : Bool
  constValue : Option GoValue
  defaultValue : Option DefaultValue

/-- `schema.Resource`, restricted to the fields the partitioner, propagator
and constructor synthesis read. -/
structure Resource where
  token : String
  isProvider : Bool
  isComponent : Bool
  inputProperties : List Property
  properties : List Property

/-- `resourceName` (gen.go lines 216-221). -/
def resourceName (r : Resource) : Option String :=
  if r.isProvider then some "Provider" else tokenToName r.token

/-! ## `typeDetails` and the optionality propagator
(gen.go lines 40-44, 1756-1804) -/

/-- `typeDetails`: which container variants of an object/enum type must be
materialized. -/
structure TypeDetails where
  ptrElement : Bool
  arrayElement : Bool
  mapElement : Bool
deriving DecidableEq, Repr

/-- The `typeDetails` / `enumDetails` maps.  In Go they are keyed by the
`*schema.ObjectType` / `*schema.EnumType` pointer inside the pkgContext
obtained from the type's own token (`getPkgFromToken(tok).detailsForType`),
so a token-keyed map is an equivalent global view.  Absent entries are the
lazily-created zero `typeDetails`. -/
structure DetailsMap where
  objD : String → TypeDetails
  enumD : String → TypeDetails

/-- The state threaded through the propagator: the shared `seen` token set
and the details maps. -/
structure MarkSt where
  seen : List String
  det : DetailsMap

def setObjPtr (d : DetailsMap) (tok : String) : DetailsMap :=
  { d with objD := fun t => if t = tok then { d.objD tok with ptrElement := true } else d.objD t }

def setObjArray (d : DetailsMap) (tok : String) : DetailsMap :=
  { d with objD := fun t => if t = tok then { d.objD tok with arrayElement := true } else d.objD t }

def setObjMap (d : DetailsMap) (tok : String) : DetailsMap :=
  { d with objD := fun t => if t = tok then { d.objD tok with mapElement := true } else d.objD t }

def setEnumPtr (d : DetailsMap) (tok : String) : DetailsMap :=
  { d with enumD := fun t => if t = tok then { d.enumD tok with ptrElement := true } else d.enumD t }

/-- The object-definition environment: token → properties, for every object
type of the schema universe (in Go the properties are embedded in the
`*schema.ObjectType` value itself). -/
abbrev ObjEnv := List (String × List Property)

/-- The type assertion `p.Type.(*schema.ObjectType)`: the object's token on
success. -/
def asObjectTok : SType → Option String
  | .objectT _ tok => some tok
  | _ => none

/-- The type assertion `p.Type.(*schema.EnumType)`: the enum's token on
success. -/
def asEnumTok : SType → Option String
  | .enumT tok _ => some tok
  | _ => none

/-- `markOptionalPropertyTypesAsRequiringPtr` (gen.go lines 1760-1780),
with an explicit recursion budget.  For each property whose type is an
object (resp. enum) and which is optional or inside an already-optional
parent, the token is added to `seen` (unless present, in which case the
property is skipped), the type's `ptrElement` flag is set, and for objects
the recursion descends into the object's own properties with
`parentOptional` forced true.  `none` means the budget was exhausted; the
sufficiency theorem below shows a budget computable from the schema always
suffices, which is the termination argument for the Go recursion. -/
def markStep (env : ObjEnv) :
    Nat → Bool → MarkSt → List Property → Option MarkSt
  | _, _, ms, [] => some ms
  | 0, _, _, _ :: _ => none
  | fuel + 1, po, ms, p :: rest =>
    match asObjectTok p.typ with
    | some tok =>
      if !p.isRequired || po then
        if ms.seen.contains tok then
          markStep env fuel po ms rest
        else do
          let ms' ← markStep env fuel true
            ⟨tok :: ms.seen, setObjPtr ms.det tok⟩ ((alookup env tok).getD [])
          markStep env fuel po ms' rest
      else markStep env fuel po ms rest
    | none =>
      match asEnumTok p.typ with
      | some tok =>
        if !p.isRequired || po then
          if ms.seen.contains tok then
            markStep env fuel po ms rest
          else
            markStep env fuel po ⟨tok :: ms.seen, setEnumPtr ms.det tok⟩ rest
        else markStep env fuel po ms rest
      | none => markStep env fuel po ms rest

/-- The budget that always suffices for `markStep`: one step per property in
the worklist plus, for every object definition not yet seen, one step per
property of that definition and one for entering it. -/
def unseenWeight (env : ObjEnv) (seen : List String) : Nat :=
  (env.filter fun e => !seen.contains e.1).foldr
    (fun e n => e.2.length + 1 + n) 0

/-- The `pkg.Types` scan of `generatePackageContextMap`
(gen.go lines 1785-1804): standalone array (resp. map) types with an object
element set that object's `arrayElement` (resp. `mapElement`) flag; standalone
object types run the optionality propagator over their properties with
`parentOptional = false`; enums are only collected. -/
def scanTypes (env : ObjEnv) (fuel : Nat) :
    MarkSt → List SType → Option MarkSt
  | ms, [] => some ms
  | ms, t :: rest =>
    match t with
    | .arrayT (.objectT _ tok) =>
      scanTypes env fuel ⟨ms.seen, setObjArray ms.det tok⟩ rest
    | .arrayT _ => scanTypes env fuel ms rest
    | .mapT (.objectT _ tok) =>
      scanTypes env fuel ⟨ms.seen, setObjMap ms.det tok⟩ rest
    | .mapT _ => scanTypes env fuel ms rest
    | .objectT _ tok => do
      let ms' ← markStep env fuel false ms ((alookup env tok).getD [])
      scanTypes env fuel ms' rest
    | _ => scanTypes env fuel ms rest

/-! ## `scanResource` (gen.go lines 1806-1824) -/

/-- `getPkg` of `generatePackageContextMap`: create the namespace bucket on
first use. -/
def getPkgSt (st : GenState) (mod : String) : GenState :=
  match alookup st mod with
  | some _ => st
  | none => st ++ [(mod, ⟨[], []⟩)]

/-- `scanResource`: partition the resource into the namespace resolved from
its token, pre-register its reserved identifiers (the `State`/`Get` family
only for non-provider, non-component resources), and run the optionality
propagator over its input and output properties with `parentOptional`
forced to `!r.IsProvider`. -/
def scanResource (env : ObjEnv) (overrides : List (String × String))
    (fuel : Nat) (r : Resource) (st : GenState) (ms : MarkSt) :
    Option (GenState × MarkSt) := do
  let mod ← tokenToPackage overrides r.token
  let st := getPkgSt st mod
  let rn ← resourceName r
  let reserved :=
    [rn, rn ++ "Input", rn ++ "Output", rn ++ "Args",
     camel rn ++ "Args", "New" ++ rn] ++
    (if !r.isProvider && !r.isComponent then
      [rn ++ "State", camel rn ++ "State", "Get" ++ rn]
     else [])
  let st := updateAt st mod fun ps =>
    { ps with names := reserved.foldl addName ps.names }
  let ms ← markStep env fuel (!r.isProvider) ms r.inputProperties
  let ms ← markStep env fuel (!r.isProvider) ms r.properties
  some (st, ms)

/-! ## The runtime utilities (`utilitiesFile`, gen.go lines 2073-2118) -/

/-- An environment: variable name → value, where `""` is what `os.Getenv`
returns for an unset variable. -/
abbrev OsEnv := String → String

/-- `parseEnvBool` (`strconv.ParseBool`; nil on parse failure). -/
def parseEnvBool (v : String) : GoValue :=
  if ["1", "t", "T", "true", "TRUE", "True"].contains v then .vBool true
  else if ["0", "f", "F", "false", "FALSE", "False"].contains v then .vBool false
  else .vNil

/-- ASCII lower-casing as `strconv`'s `lower` helper. -/
def lowC (c : Char) : Char := c.toLower

/-- The numeric value of an ASCII digit or letter, as in `strconv.ParseUint`'s
digit classification. -/
def digVal (c : Char) : Option Nat :=
  if '0' ≤ c ∧ c ≤ '9' then some (c.toNat - '0'.toNat)
  else if 'a' ≤ lowC c ∧ lowC c ≤ 'z' then some ((lowC c).toNat - 'a'.toNat + 10)
  else none

/-- The digit loop of `strconv.ParseUint` with base detection already done;
returns the accumulated value and whether underscores were seen, `none` on an
invalid digit. -/
def parseDigitsAux (base : Nat) : List Char → Nat → Bool → Option (Nat × Bool)
  | [], acc, saw => some (acc, saw)
  | c :: rest, acc, saw =>
    if c = '_' then parseDigitsAux base rest acc true
    else
      match digVal c with
      | none => none
      | some d =>
        if base ≤ d then none
        else parseDigitsAux base rest (acc * base + d) saw

/-- `strconv`'s `underscoreOK` scanner: `saw` is `'^'` at the beginning,
`'0'` after a digit or base prefix, `'_'` after an underscore, `'!'`
otherwise. -/
def underscoreOKAux (hex : Bool) : Char → List Char → Bool
  | saw, [] => saw ≠ '_'
  | saw, c :: rest =>
    if ('0' ≤ c ∧ c ≤ '9') ∨ (hex ∧ 'a' ≤ lowC c ∧ lowC c ≤ 'f') then
      underscoreOKAux hex '0' rest
    else if c = '_' then
      if saw ≠ '0' then false else underscoreOKAux hex '_' rest
    else if saw = '_' then false
    else underscoreOKAux hex '!' rest

/-- `strconv.underscoreOK`: underscores may only separate digits (or follow a
base prefix). -/
def underscoreOK (s : List Char) : Bool :=
  let s' :=
    match s with
    | c :: rest => if c = '-' ∨ c = '+' then rest else c :: rest
    | [] => []
  match s' with
  | c0 :: c1 :: rest =>
    if c0 = '0' ∧ (lowC c1 = 'b' ∨ lowC c1 = 'o' ∨ lowC c1 = 'x') then
      underscoreOKAux (lowC c1 = 'x') '0' rest
    else underscoreOKAux false '^' (c0 :: c1 :: rest)
  | other => underscoreOKAux false '^' other

/-- `strconv.ParseUint(s, 0, 64)` after sign stripping: base detection from
the `0b`/`0o`/`0x`/`0` prefix, digit accumulation, 64-bit range check.
Returns the value and whether underscores were seen; `none` on error. -/
def parseUint0 (s : List Char) : Option (Nat × Bool) :=
  if s = [] then none
  else
    let bd : Nat × List Char :=
      match s with
      | '0' :: c1 :: c2 :: rest =>
        if lowC c1 = 'b' then (2, c2 :: rest)
        else if lowC c1 = 'o' then (8, c2 :: rest)
        else if lowC c1 = 'x' then (16, c2 :: rest)
        else (8, c1 :: c2 :: rest)
      | '0' :: rest => (8, rest)
      | other => (10, other)
    match parseDigitsAux bd.1 bd.2 0 false with
    | none => none
    | some (v, saw) => if v ≥ 2 ^ 64 then none else some (v, saw)

/-- `strconv.ParseInt(s, 0, 0)` (base auto-detection, native 64-bit `int`):
`none` on any syntax or range error. -/
def goParseInt0 (s : List Char) : Option Int :=
  match s with
  | [] => none
  | _ :: _ =>
    let nr : Bool × List Char :=
      match s with
      | '+' :: r => (false, r)
      | '-' :: r => (true, r)
      | r => (false, r)
    match parseUint0 nr.2 with
    | none => none
    | some (un, saw) =>
      if saw ∧ ¬underscoreOK s then none
      else if ¬nr.1 ∧ un ≥ 2 ^ 63 then none
      else if nr.1 ∧ un > 2 ^ 63 then none
      else some (if nr.1 then -(un : Int) else (un : Int))

/-- `parseEnvInt` (`strconv.ParseInt(v, 0, 0)`; nil on parse failure). -/
def parseEnvInt (v : String) : GoValue :=
  match goParseInt0 v.data with
  | none => .vNil
  | some i => .vInt i

/-- `parseEnvStringArray`: split on `;` into a string array. -/
def parseEnvStringArray (v : String) : GoValue :=
  .vStrArray (goSplit v ';')

/-- `getEnvOrDefault` (gen.go lines 2108-2118): the first environment
variable whose value is non-empty decides the result — parsed when a parser
is given, verbatim otherwise — and only if every listed variable is unset or
empty is the default returned. -/
def getEnvOrDefaultGo (d : GoValue) (parser : Option (String → GoValue))
    (vars : List String) (env : OsEnv) : GoValue :=
  match vars with
  | [] => d
  | v :: rest =>
    if env v ≠ "" then
      match parser with
      | some p => p (env v)
      | none => .vStr (env v)
    else getEnvOrDefaultGo d parser rest env

/-! ## The synthesized constructor (`genResource`, gen.go lines 960-1121)

`genResource` emits Go text; the definitions below are the semantics of the
emitted constructor `NewFoo(ctx, name, args, opts)`, restricted to what it
does with the argument struct: nil-args validation, per-property required
validation, constant forcing and default injection.  Registration options
(aliases, secrets) and the runtime call do not affect these and are omitted.
`parseEnvFloat` wraps `strconv.ParseFloat`, whose floating-point semantics
is outside the embedding; it is taken as a parameter `fparse` instead. -/

/-- The two failure conditions of the synthesized constructor. -/
inductive CtorErr where
  | missingRequiredArguments
  | invalidRequiredArgument (name : String)
deriving DecidableEq, Repr

/-- Is the schema type a direct enum type? (`p.Type.(*schema.EnumType)`). -/
def isEnumSType : SType → Bool
  | .enumT _ _ => true
  | _ => false

/-- `goPrimitiveValue`'s success domain (gen.go lines 881-904): bool, ints,
floats and strings render; anything else is a generation error. -/
def primRenderable : GoValue → Bool
  | .vBool _ => true
  | .vInt _ => true
  | .vNumber _ => true
  | .vStr _ => true
  | .vNil => false
  | .vStrArray _ => false

/-- The parser and kind-appropriate zero chosen by `getDefaultValue`
(gen.go lines 932-944) for a property type. -/
def typDefaultParser (t : SType) (fparse : String → GoValue) :
    Option (String → GoValue) × GoValue :=
  match t with
  | .arrayT _ => (some parseEnvStringArray, .vStrArray [])
  | .boolT => (some parseEnvBool, .vBool false)
  | .intT => (some parseEnvInt, .vInt 0)
  | .numberT => (some fparse, .vNumber 0)
  | _ => (none, .vStr "")

/-- Semantic value of the default expression built by `getDefaultValue`
(gen.go lines 919-958): the literal, or — when environment variables are
listed — `getEnvOrDefault` over them with the literal (else the
kind-appropriate zero) as final fallback.  `none` models the generation
error for unsupported literals (and the degenerate default with neither a
literal nor variables, whose emitted expression is empty). -/
def getDefaultValueSem (dv : DefaultValue) (t : SType) (env : OsEnv)
    (fparse : String → GoValue) : Option GoValue :=
  match dv.value with
  | some c =>
    if primRenderable c then
      if dv.environment ≠ [] then
        some (getEnvOrDefaultGo c (typDefaultParser t fparse).1 dv.environment env)
      else some c
    else none
  | none =>
    if dv.environment ≠ [] then
      some (getEnvOrDefaultGo (typDefaultParser t fparse).2
        (typDefaultParser t fparse).1 dv.environment env)
    else none

/-- The zero-representation comparison emitted for a required enum-typed
property with a default (gen.go lines 1049-1058): `== ""` for string enums,
`== 0` for numeric enums; other element types are a generation-time
assertion failure (`none`). -/
def enumZeroGuard (elem : SType) (v : GoValue) : Option Bool :=
  match elem with
  | .stringT => some (v = .vStr "")
  | .intT => some (v = .vInt 0)
  | .numberT => some (v = .vNumber 0)
  | _ => none

/-- An argument struct: field (title-cased property name) → value. -/
abbrev Args := String → GoValue

def updArg (a : Args) (n : String) (v : GoValue) : Args :=
  fun m => if m = n then v else a m

/-- The type assertion `p.Type.(*schema.EnumType)` projected to the enum's
element type. -/
def asEnumElem : SType → Option SType
  | .enumT _ elem => some elem
  | _ => none

/-- The constant assignment of the emitted constructor (gen.go lines
1022-1035): a constant is force-assigned unconditionally; an unrenderable
constant is a generation error. -/
def applyConstStep (p : Property) (a : Args) : Option Args :=
  match p.constValue with
  | some c =>
    if primRenderable c then some (updArg a (Title p.name) c) else none
  | none => some a

/-- The default assignment of the emitted constructor (gen.go lines
1036-1077): a default is assigned when the current value is nil — except
for required enum-typed properties, where the guard is the enum's zero
representation. -/
def applyDefaultStep (env : OsEnv) (fparse : String → GoValue)
    (p : Property) (a : Args) : Option Args :=
  match p.defaultValue with
  | none => some a
  | some dv => do
    let v ← getDefaultValueSem dv p.typ env fparse
    match asEnumElem p.typ with
    | some elem =>
      if p.isRequired then do
        let z ← enumZeroGuard elem (a (Title p.name))
        some (if z then updArg a (Title p.name) v else a)
      else
        some (if a (Title p.name) = .vNil then updArg a (Title p.name) v else a)
    | none =>
      some (if a (Title p.name) = .vNil then updArg a (Title p.name) v else a)

/-- One iteration of the constant/default loop of the emitted constructor
(gen.go lines 1022-1078). -/
def applyProp (env : OsEnv) (fparse : String → GoValue) (a : Args)
    (p : Property) : Option Args := do
  let a ← applyConstStep p a
  applyDefaultStep env fparse p a

/-- Semantics of the emitted constructor `NewFoo` with respect to its
argument struct (gen.go lines 986-1121): nil-args handling, the sequence of
required-argument nil checks (which skip enum-typed properties), then the
constant/default pass.  The outer `Option` is generation failure; the
`Except` is the constructor's runtime error result. -/
def newResource (r : Resource) (args : Option Args) (env : OsEnv)
    (fparse : String → GoValue) : Option (Except CtorErr Args) :=
  let hasReq := r.inputProperties.any (·.isRequired)
  let run : Args → Option (Except CtorErr Args) := fun a =>
    match r.inputProperties.find?
        (fun p => !isEnumSType p.typ && p.isRequired && a (Title p.name) == .vNil) with
    | some p => some (.error (.invalidRequiredArgument (Title p.name)))
    | none => (r.inputProperties.foldlM (applyProp env fparse) a).map .ok
  match args with
  | none =>
    if hasReq then some (.error .missingRequiredArguments)
    else run fun _ => .vNil
  | some a => run a

/-- The invariant of the shared `seen` set: every token ever added to it had
its pointer-variant flag set (on the object side or on the enum side) at the
moment it was added. -/
def seenMarked (ms : MarkSt) : Prop :=
  ∀ t ∈ ms.seen,
    (ms.det.objD t).ptrElement = true ∨ (ms.det.enumD t).ptrElement = true

/-- Growth order on the details maps: pointer-variant flags, once set, stay
set. -/
def detLe (d d' : DetailsMap) : Prop :=
  ∀ t, ((d.objD t).ptrElement = true → (d'.objD t).ptrElement = true) ∧
       ((d.enumD t).ptrElement = true → (d'.enumD t).ptrElement = true)

/-- Recursive completeness of the `seen` set: every seen token was either an
enum marking, or an object whose own object- and enum-typed property tokens
are again in `seen` — the propagator descended into it. -/
def seenClosed (env : ObjEnv) (ms : MarkSt) : Prop :=
  ∀ t ∈ ms.seen,
    (ms.det.enumD t).ptrElement = true ∨
    ∀ q ∈ (alookup env t).getD [],
      (∀ tok, asObjectTok q.typ = some tok → tok ∈ ms.seen) ∧
      (∀ tok, asEnumTok q.typ = some tok → tok ∈ ms.seen)

/-- The schema types whose resolution falls through the type switch to the
optionality wrapper in all three of `plainType`, `inputType` and
`outputType`: the four primitive scalars, object types, and token types
without an underlying type. -/
def optionalFallsThrough : SType → Bool
  | .boolT => true
  | .intT => true
  | .numberT => true
  | .stringT => true
  | .objectT _ _ => true
  | .tokenT _ .noneT => true
  | _ => false

/-! ## Concrete fixtures -/

/-- A local-package context for module `m` with no overrides. -/
def ctx0 : Ctx := ⟨"p", "m", [], true, fun _ => []⟩

/-- Namespace `m` in which the resource identifier `Bucket` is registered. -/
def bucketSt : GenState := [("m", ⟨["Bucket"], []⟩)]

/-- `bucketSt` after `tokenToType` renamed `Bucket` to `BucketType`. -/
def bucketStAfter : GenState :=
  [("m", ⟨["Bucket", "BucketType"], [("Bucket", "BucketType")]⟩)]

/-- The zero `typeDetails`/`enumDetails` state with an empty seen set. -/
def ms0 : MarkSt :=
  ⟨[], ⟨fun _ => ⟨false, false, false⟩, fun _ => ⟨false, false, false⟩⟩⟩

/-- A property-less resource `p:m:foo`, used as an interleaved registration. -/
def fooRes : Resource := ⟨"p:m:foo", false, false, [], []⟩

/-- The token of the self-referential `Node` object type. -/
def nodeTok : String := "p:m:node"

/-- `Node { children: Array<Node> }`: the self-referential object-definition
environment. -/
def nodeEnv : ObjEnv :=
  [(nodeTok, [⟨"children", .arrayT (.objectT "p" nodeTok), true, false,
              none, none⟩])]

/-- The package's standalone types: the array type over `Node` and `Node`
itself. -/
def nodeTypes : List SType :=
  [.arrayT (.objectT "p" nodeTok), .objectT "p" nodeTok]

/-- The resource `p:m:Widget` (non-provider, non-component). -/
def widgetRes : Resource := ⟨"p:m:Widget", false, false, [], []⟩

/-- A provider resource. -/
def providerRes : Resource := ⟨"pulumi:providers:p", true, false, [], []⟩

/-- A component resource named `Widget`. -/
def componentRes : Resource := ⟨"p:m:Widget", false, true, [], []⟩

/-- An object-typed property (`p:m:cfg`), required or optional. -/
def objProp (req : Bool) : Property :=
  ⟨"cfg", .objectT "p" "p:m:cfg", req, false, none, none⟩

/-- A non-provider resource with one required object-typed input property. -/
def nonProvRes : Resource := ⟨"p:m:thing", false, false, [objProp true], []⟩

/-- A provider resource with one required object-typed input property. -/
def provReqRes : Resource :=
  ⟨"pulumi:providers:p", true, false, [objProp true], []⟩

/-- A provider resource with one optional object-typed input property. -/
def provOptRes : Resource :=
  ⟨"pulumi:providers:p", true, false, [objProp false], []⟩

/-! # Theorems -/

/-! ## Helper lemmas -/

theorem alookup_updateAt_self (st : GenState)
    (mod : String) (f : PkgState → PkgState) :
    alookup (updateAt st mod f) mod = (alookup st mod).map f := by
  induction st with
  | nil => rfl
  | cons e st ih =>
    by_cases h : e.1 = mod
    · simp only [updateAt, if_pos h, alookup, h, if_pos rfl]
      simp
    · simp only [updateAt, if_neg h, alookup]
      exact ih

theorem alookup_append_of_none {α : Type} {l : List (String × α)} {k : String}
    (h : alookup l k = none) (v : α) :
    alookup (l ++ [(k, v)]) k = some v := by
  induction l with
  | nil => simp [alookup]
  | cons e l ih =>
    by_cases he : e.1 = k
    · rw [alookup, if_pos he] at h
      exact Option.noConfusion h
    · rw [alookup, if_neg he] at h
      rw [List.cons_append, alookup, if_neg he]
      exact ih h

theorem detLe_refl (d : DetailsMap) : detLe d d := fun _ => ⟨id, id⟩

theorem detLe_trans {a b c : DetailsMap} (h1 : detLe a b) (h2 : detLe b c) :
    detLe a c :=
  fun t => ⟨fun h => (h2 t).1 ((h1 t).1 h), fun h => (h2 t).2 ((h1 t).2 h)⟩

theorem detLe_setObjPtr (d : DetailsMap) (tok : String) :
    detLe d (setObjPtr d tok) := by
  intro t
  constructor
  · intro h
    simp only [setObjPtr]
    split
    · next he => subst he; simp [h]
    · exact h
  · intro h; exact h

theorem detLe_setEnumPtr (d : DetailsMap) (tok : String) :
    detLe d (setEnumPtr d tok) := by
  intro t
  constructor
  · intro h; exact h
  · intro h
    simp only [setEnumPtr]
    split
    · next he => subst he; simp [h]
    · exact h

theorem setObjPtr_self (d : DetailsMap) (tok : String) :
    ((setObjPtr d tok).objD tok).ptrElement = true := by
  simp [setObjPtr]

theorem setEnumPtr_self (d : DetailsMap) (tok : String) :
    ((setEnumPtr d tok).enumD tok).ptrElement = true := by
  simp [setEnumPtr]

theorem mem_of_containsEq {l : List String} {a : String}
    (h : l.contains a = true) : a ∈ l := by
  simpa using h

theorem containsEq_of_mem {l : List String} {a : String} (h : a ∈ l) :
    l.contains a = true := by
  simpa using h

theorem unseenWeight_cons (e : String × List Property) (env : ObjEnv)
    (seen : List String) :
    unseenWeight (e :: env) seen =
      (if e.1 ∈ seen then 0 else e.2.length + 1) +
        unseenWeight env seen := by
  by_cases h : e.1 ∈ seen
  · simp [unseenWeight, List.filter_cons, h]
  · simp [unseenWeight, List.filter_cons, h]

theorem unseenWeight_anti (env : ObjEnv) {s1 s2 : List String} (h : s1 ⊆ s2) :
    unseenWeight env s2 ≤ unseenWeight env s1 := by
  induction env with
  | nil => simp [unseenWeight]
  | cons e env ih =>
    rw [unseenWeight_cons, unseenWeight_cons]
    have hif : (if e.1 ∈ s2 then 0 else e.2.length + 1) ≤
        (if e.1 ∈ s1 then 0 else e.2.length + 1) := by
      by_cases h1 : e.1 ∈ s1
      · simp [h1, h h1]
      · by_cases h2 : e.1 ∈ s2 <;> simp [h1, h2]
    exact Nat.add_le_add hif ih

theorem unseenWeight_lookup {env : ObjEnv} {t : String} {pr : List Property}
    {seen : List String} (hl : alookup env t = some pr) (hns : t ∉ seen) :
    unseenWeight env (t :: seen) + (pr.length + 1) ≤ unseenWeight env seen := by
  induction env with
  | nil => exact absurd hl (by simp [alookup])
  | cons e env ih =>
    rw [unseenWeight_cons, unseenWeight_cons]
    rw [alookup] at hl
    by_cases he : e.1 = t
    · rw [if_pos he] at hl
      have hpr : e.2 = pr := Option.some.inj hl
      have hc2 : e.1 ∈ t :: seen := by simp [he]
      have hc1 : e.1 ∉ seen := fun hx => hns (he ▸ hx)
      rw [if_pos hc2, if_neg hc1, hpr]
      have := @unseenWeight_anti env seen (t :: seen)
        (List.subset_cons_self _ _)
      omega
    · rw [if_neg he] at hl
      have hcc : (e.1 ∈ t :: seen) ↔ (e.1 ∈ seen) := by
        simp [List.mem_cons, he]
      rw [if_congr hcc rfl rfl]
      have := ih hl
      omega

theorem asEnumTok_of_obj {t : SType} {tok : String}
    (h : asObjectTok t = some tok) : asEnumTok t = none := by
  cases t <;> simp_all [asObjectTok, asEnumTok]

/-- Combined structural facts about one `markOptionalPropertyTypesAsRequiringPtr`
run: the seen set only grows; pointer flags only get set; the seen-marked
invariant is preserved; every token newly added to `seen` is either an enum
marking or an object whose property tokens end up in `seen`; and with
`parentOptional = true` every object- or enum-typed property of the worklist
has its token in the final `seen` set. -/
theorem markStep_props (env : ObjEnv) :
    ∀ (fuel : Nat) (po : Bool) (ms : MarkSt) (props : List Property)
      (ms' : MarkSt), markStep env fuel po ms props = some ms' →
      ms.seen ⊆ ms'.seen ∧
      detLe ms.det ms'.det ∧
      (seenMarked ms → seenMarked ms') ∧
      (∀ t ∈ ms'.seen, t ∉ ms.seen →
        (ms'.det.enumD t).ptrElement = true ∨
        ∀ q ∈ (alookup env t).getD [],
          (∀ tok, asObjectTok q.typ = some tok → tok ∈ ms'.seen) ∧
          (∀ tok, asEnumTok q.typ = some tok → tok ∈ ms'.seen)) ∧
      (po = true → ∀ p ∈ props,
        (∀ tok, asObjectTok p.typ = some tok → tok ∈ ms'.seen) ∧
        (∀ tok, asEnumTok p.typ = some tok → tok ∈ ms'.seen)) := by
  intro fuel
  induction fuel using Nat.strong_induction_on with
  | _ fuel ih =>
  intro po ms props ms' h
  cases props with
  | nil =>
    simp only [markStep] at h
    obtain rfl : ms = ms' := Option.some.inj h
    refine ⟨fun a ha => ha, detLe_refl _, fun hm => hm, ?_, ?_⟩
    · intro t ht hnt; exact absurd ht hnt
    · intro _ p hp; exact absurd hp (List.not_mem_nil p)
  | cons p rest =>
    cases fuel with
    | zero => simp [markStep] at h
    | succ f =>
      have IH := ih f (Nat.lt_succ_self f)
      simp only [markStep] at h
      split at h
      · rename_i tok hobj
        by_cases hcond : (!p.isRequired || po) = true
        · rw [if_pos hcond] at h
          by_cases hseen : ms.seen.contains tok = true
          · rw [if_pos hseen] at h
            obtain ⟨s1, d1, m1, n1, p1⟩ := IH po ms rest ms' h
            refine ⟨s1, d1, m1, n1, ?_⟩
            intro hpo pq hpq
            rcases List.mem_cons.mp hpq with rfl | hmem
            · refine ⟨?_, ?_⟩
              · intro tk htk
                rw [hobj] at htk
                exact (Option.some.inj htk) ▸ s1 (mem_of_containsEq hseen)
              · intro tk htk
                rw [asEnumTok_of_obj hobj] at htk
                exact Option.noConfusion htk
            · exact p1 hpo pq hmem
          · rw [if_neg hseen] at h
            cases hin : markStep env f true
                ⟨tok :: ms.seen, setObjPtr ms.det tok⟩
                ((alookup env tok).getD []) with
            | none => rw [hin] at h; exact Option.noConfusion h
            | some ms1 =>
              rw [hin] at h
              obtain ⟨s1, d1, m1, n1, p1⟩ := IH true _ _ ms1 hin
              obtain ⟨s2, d2, m2, n2, p2⟩ := IH po ms1 rest ms' h
              have hmemtok : tok ∈ ms'.seen :=
                s2 (s1 (List.mem_cons_self _ _))
              refine ⟨?_, ?_, ?_, ?_, ?_⟩
              · intro a ha
                exact s2 (s1 (List.mem_cons_of_mem _ ha))
              · exact detLe_trans
                  (detLe_trans (detLe_setObjPtr ms.det tok) d1) d2
              · intro hm
                apply m2; apply m1
                intro t ht
                rcases List.mem_cons.mp ht with rfl | hmem
                · left; exact setObjPtr_self ms.det t
                · rcases hm t hmem with hl | hr
                  · left; exact ((detLe_setObjPtr ms.det tok) t).1 hl
                  · right; exact ((detLe_setObjPtr ms.det tok) t).2 hr
              · intro t ht hnt
                by_cases htin : t ∈ ms1.seen
                · by_cases htok : t = tok
                  · subst htok
                    right
                    intro q hq
                    exact ⟨fun tk htk => s2 ((p1 rfl q hq).1 tk htk),
                           fun tk htk => s2 ((p1 rfl q hq).2 tk htk)⟩
                  · have hnt' : t ∉ tok :: ms.seen := by
                      intro hx
                      rcases List.mem_cons.mp hx with h1 | h2
                      · exact htok h1
                      · exact hnt h2
                    rcases n1 t htin hnt' with hl | hr
                    · left; exact (d2 t).2 hl
                    · right
                      intro q hq
                      exact ⟨fun tk htk => s2 ((hr q hq).1 tk htk),
                             fun tk htk => s2 ((hr q hq).2 tk htk)⟩
                · rcases n2 t ht htin with hl | hr
                  · left; exact hl
                  · right; exact hr
              · intro hpo pq hpq
                rcases List.mem_cons.mp hpq with rfl | hmem
                · refine ⟨?_, ?_⟩
                  · intro tk htk
                    rw [hobj] at htk
                    exact (Option.some.inj htk) ▸ hmemtok
                  · intro tk htk
                    rw [asEnumTok_of_obj hobj] at htk
                    exact Option.noConfusion htk
                · exact p2 hpo pq hmem
        · rw [if_neg hcond] at h
          obtain ⟨s1, d1, m1, n1, p1⟩ := IH po ms rest ms' h
          refine ⟨s1, d1, m1, n1, ?_⟩
          intro hpo pq hpq
          rcases List.mem_cons.mp hpq with rfl | hmem
          · exfalso; apply hcond; rw [hpo]; simp
          · exact p1 hpo pq hmem
      · rename_i hobjN
        split at h
        · rename_i tok henum
          by_cases hcond : (!p.isRequired || po) = true
          · rw [if_pos hcond] at h
            by_cases hseen : ms.seen.contains tok = true
            · rw [if_pos hseen] at h
              obtain ⟨s1, d1, m1, n1, p1⟩ := IH po ms rest ms' h
              refine ⟨s1, d1, m1, n1, ?_⟩
              intro hpo pq hpq
              rcases List.mem_cons.mp hpq with rfl | hmem
              · refine ⟨?_, ?_⟩
                · intro tk htk
                  rw [hobjN] at htk
                  exact Option.noConfusion htk
                · intro tk htk
                  rw [henum] at htk
                  exact (Option.some.inj htk) ▸ s1 (mem_of_containsEq hseen)
              · exact p1 hpo pq hmem
            · rw [if_neg hseen] at h
              obtain ⟨s1, d1, m1, n1, p1⟩ :=
                IH po ⟨tok :: ms.seen, setEnumPtr ms.det tok⟩ rest ms' h
              have hmemtok : tok ∈ ms'.seen := s1 (List.mem_cons_self _ _)
              refine ⟨?_, ?_, ?_, ?_, ?_⟩
              · intro a ha
                exact s1 (List.mem_cons_of_mem _ ha)
              · exact detLe_trans (detLe_setEnumPtr ms.det tok) d1
              · intro hm
                apply m1
                intro t ht
                rcases List.mem_cons.mp ht with rfl | hmem
                · right; exact setEnumPtr_self ms.det t
                · rcases hm t hmem with hl | hr
                  · left; exact ((detLe_setEnumPtr ms.det tok) t).1 hl
                  · right; exact ((detLe_setEnumPtr ms.det tok) t).2 hr
              · intro t ht hnt
                by_cases htok : t = tok
                · subst htok
                  left
                  exact (d1 t).2 (setEnumPtr_self ms.det t)
                · have hnt' : t ∉ tok :: ms.seen := by
                    intro hx
                    rcases List.mem_cons.mp hx with h1 | h2
                    · exact htok h1
                    · exact hnt h2
                  exact n1 t ht hnt'
              · intro hpo pq hpq
                rcases List.mem_cons.mp hpq with rfl | hmem
                · refine ⟨?_, ?_⟩
                  · intro tk htk
                    rw [hobjN] at htk
                    exact Option.noConfusion htk
                  · intro tk htk
                    rw [henum] at htk
                    exact (Option.some.inj htk) ▸ hmemtok
                · exact p1 hpo pq hmem
          · rw [if_neg hcond] at h
            obtain ⟨s1, d1, m1, n1, p1⟩ := IH po ms rest ms' h
            refine ⟨s1, d1, m1, n1, ?_⟩
            intro hpo pq hpq
            rcases List.mem_cons.mp hpq with rfl | hmem
            · exfalso; apply hcond; rw [hpo]; simp
            · exact p1 hpo pq hmem
        · rename_i henumN
          obtain ⟨s1, d1, m1, n1, p1⟩ := IH po ms rest ms' h
          refine ⟨s1, d1, m1, n1, ?_⟩
          intro hpo pq hpq
          rcases List.mem_cons.mp hpq with rfl | hmem
          · refine ⟨?_, ?_⟩
            · intro tk htk
              rw [hobjN] at htk
              exact Option.noConfusion htk
            · intro tk htk
              rw [henumN] at htk
              exact Option.noConfusion htk
          · exact p1 hpo pq hmem

/-- Fuel sufficiency: the budget `props.length + unseenWeight env seen`
always lets `markStep` run to completion.  Because the seen set prevents
reprocessing any token, the pending work is bounded by the worklist plus the
total size of the not-yet-seen object definitions — this is the termination
argument for the Go recursion, valid for cyclic schemas. -/
theorem markStep_enough (env : ObjEnv) :
    ∀ (fuel : Nat) (po : Bool) (ms : MarkSt) (props : List Property),
      props.length + unseenWeight env ms.seen ≤ fuel →
      (markStep env fuel po ms props).isSome = true := by
  intro fuel
  induction fuel using Nat.strong_induction_on with
  | _ fuel ih =>
  intro po ms props hle
  cases props with
  | nil => simp [markStep]
  | cons p rest =>
    cases fuel with
    | zero =>
      rw [List.length_cons] at hle
      omega
    | succ f =>
      have IH := ih f (Nat.lt_succ_self f)
      rw [List.length_cons] at hle
      simp only [markStep]
      split
      · rename_i tok hobj
        by_cases hcond : (!p.isRequired || po) = true
        · rw [if_pos hcond]
          by_cases hseen : ms.seen.contains tok = true
          · rw [if_pos hseen]
            exact IH po ms rest (by omega)
          · rw [if_neg hseen]
            have hnotmem : tok ∉ ms.seen := fun hx =>
              hseen (containsEq_of_mem hx)
            have hwsub : unseenWeight env (tok :: ms.seen) ≤
                unseenWeight env ms.seen :=
              unseenWeight_anti env (List.subset_cons_self _ _)
            have hin : (markStep env f true
                ⟨tok :: ms.seen, setObjPtr ms.det tok⟩
                ((alookup env tok).getD [])).isSome = true := by
              apply IH true _ ((alookup env tok).getD [])
              cases hl : alookup env tok with
              | none =>
                simp only [hl, Option.getD_none, List.length_nil]
                omega
              | some pr =>
                simp only [Option.getD_some]
                have hw := unseenWeight_lookup hl hnotmem
                omega
            obtain ⟨ms1, hms1⟩ := Option.isSome_iff_exists.mp hin
            rw [hms1]
            show (markStep env f po ms1 rest).isSome = true
            have hsub := (markStep_props env f true _ _ ms1 hms1).1
            have hwm : unseenWeight env ms1.seen ≤
                unseenWeight env (tok :: ms.seen) :=
              unseenWeight_anti env hsub
            exact IH po ms1 rest (by omega)
        · rw [if_neg hcond]
          exact IH po ms rest (by omega)
      · split
        · rename_i tok henum
          by_cases hcond : (!p.isRequired || po) = true
          · rw [if_pos hcond]
            by_cases hseen : ms.seen.contains tok = true
            · rw [if_pos hseen]
              exact IH po ms rest (by omega)
            · rw [if_neg hseen]
              have hwsub : unseenWeight env (tok :: ms.seen) ≤
                  unseenWeight env ms.seen :=
                unseenWeight_anti env (List.subset_cons_self _ _)
              exact IH po ⟨tok :: ms.seen, setEnumPtr ms.det tok⟩ rest
                (by show rest.length + unseenWeight env (tok :: ms.seen) ≤ f
                    omega)
          · rw [if_neg hcond]
            exact IH po ms rest (by omega)
        · exact IH po ms rest (by omega)

/-- **C1.** For every token of the form `"p:m:n"`, `tokenToPackage` returns
the override for `m` when the overrides map contains `m` and otherwise `m`
itself, the result case-folded to lower case; any token that does not split
into exactly three colon-separated components is a fatal assertion failure
(`none`). -/
theorem c1_tokenToPackage_overrides :
    (∀ (p m n : String) (ov : List (String × String)),
      goSplit (p ++ ":" ++ m ++ ":" ++ n) ':' = [p, m, n] →
      tokenToPackage ov (p ++ ":" ++ m ++ ":" ++ n) =
        some (goToLower ((alookup ov m).getD m))) ∧
    (∀ (tok : String) (ov : List (String × String)),
      (goSplit tok ':').length ≠ 3 → tokenToPackage ov tok = none) := by
  constructor
  · intro p m n ov h
    simp [tokenToPackage, TokenToModule, h]
  · intro tok ov h
    simp [tokenToPackage, TokenToModule, h]

/-- Witness for C1 at `"p:MyMod:thing"` with override `MyMod ↦ Compute` and
at the malformed token `"a:b"`. -/
theorem c1_tokenToPackage_overrides_witness :
    tokenToPackage [("MyMod", "Compute")] "p:MyMod:thing" = some "compute" ∧
    tokenToPackage ([] : List (String × String)) "a:b" = none := by
  constructor
  · have h := c1_tokenToPackage_overrides.1 "p" "MyMod" "thing"
      [("MyMod", "Compute")] (by decide)
    exact h.trans (by decide)
  · exact c1_tokenToPackage_overrides.2 "a:b" [] (by decide)

/-- **C2, counterexample.** In a namespace already holding the resource
identifier `Bucket`, resolving the object type `p:m:bucket` yields
`BucketType`, but the *subsequent* enum resolution of `p:m:bucket` also
yields `BucketType` — the recorded rename — and not `BucketEnum` as the
claim states. -/
theorem c2_enum_after_rename_counterexample :
    tokenToType ctx0 bucketSt "p:m:bucket" = some ("BucketType", bucketStAfter) ∧
    (tokenToEnum ctx0 bucketStAfter "p:m:bucket").map Prod.fst = some "BucketType" ∧
    (tokenToEnum ctx0 bucketStAfter "p:m:bucket").map Prod.fst ≠ some "BucketEnum" := by
  decide

/-- **C2, amended.** In a namespace that already registered the resource
identifier `Bucket`, resolving the object type `p:m:bucket` yields
`BucketType`; a subsequent enum resolution of the same member name returns
the recorded rename `BucketType`; the enum resolves to `BucketEnum` only
when it is resolved before a rename of `Bucket` was recorded. -/
theorem c2_collision_suffixes :
    (tokenToType ctx0 bucketSt "p:m:bucket").map Prod.fst = some "BucketType" ∧
    (tokenToEnum ctx0 bucketStAfter "p:m:bucket").map Prod.fst = some "BucketType" ∧
    (tokenToEnum ctx0 bucketSt "p:m:bucket").map Prod.fst = some "BucketEnum" := by
  decide

/-- **C7.** Partitioning a package with the non-provider, non-component
resource `p:m:Widget` registers exactly `Widget`, `WidgetInput`,
`WidgetOutput`, `WidgetArgs`, `widgetArgs`, `NewWidget`, `WidgetState`,
`widgetState` and `GetWidget` in namespace `m`, pairwise distinct; for a
provider and for a component resource the `State`/`Get` triple is omitted. -/
theorem c7_scanResource_reserved_identifiers :
    ((scanResource [] [] 0 widgetRes [] ms0).map fun x => alookup x.1 "m") =
      some (some ⟨["Widget", "WidgetInput", "WidgetOutput", "WidgetArgs",
                   "widgetArgs", "NewWidget", "WidgetState", "widgetState",
                   "GetWidget"], []⟩) ∧
    (["Widget", "WidgetInput", "WidgetOutput", "WidgetArgs", "widgetArgs",
      "NewWidget", "WidgetState", "widgetState", "GetWidget"] : List String).Nodup ∧
    ((scanResource [] [] 0 providerRes [] ms0).map fun x => alookup x.1 "providers") =
      some (some ⟨["Provider", "ProviderInput", "ProviderOutput",
                   "ProviderArgs", "providerArgs", "NewProvider"], []⟩) ∧
    ((scanResource [] [] 0 componentRes [] ms0).map fun x => alookup x.1 "m") =
      some (some ⟨["Widget", "WidgetInput", "WidgetOutput", "WidgetArgs",
                   "widgetArgs", "NewWidget"], []⟩) := by
  decide

/-- **C10.** In `getEnvOrDefault`, the first listed environment variable
whose value is non-empty decides the result — the parser's output, even when
the parse fails and yields nil — and neither later variables nor the default
are consulted; empty-valued variables are skipped; the default is returned
only when every listed variable is unset or empty.  Concretely, a boolean
lookup over `A="zzz"`, `B="true"` returns nil (the failed parse of `A`),
not the parse of `B` and not the default. -/
theorem c10_getEnvOrDefault_first_nonempty :
    (∀ (d : GoValue) (parser : Option (String → GoValue)) (env : OsEnv)
       (v : String) (rest : List String),
      env v ≠ "" →
      getEnvOrDefaultGo d parser (v :: rest) env =
        match parser with
        | some p => p (env v)
        | none => .vStr (env v)) ∧
    (∀ (d : GoValue) (parser : Option (String → GoValue)) (env : OsEnv)
       (v : String) (rest : List String),
      env v = "" →
      getEnvOrDefaultGo d parser (v :: rest) env =
        getEnvOrDefaultGo d parser rest env) ∧
    (∀ (d : GoValue) (parser : Option (String → GoValue)) (env : OsEnv)
       (vars : List String),
      (∀ v ∈ vars, env v = "") → getEnvOrDefaultGo d parser vars env = d) ∧
    (parseEnvBool "zzz" = .vNil ∧
     getEnvOrDefaultGo (.vBool false) (some parseEnvBool) ["A", "B"]
       (fun v => if v = "A" then "zzz" else if v = "B" then "true" else "") =
       .vNil) := by
  refine ⟨?_, ?_, ?_, ?_⟩
  · intro d parser env v rest h
    simp only [getEnvOrDefaultGo, if_pos h]
  · intro d parser env v rest h
    simp only [getEnvOrDefaultGo, h]
    simp
  · intro d parser env vars h
    induction vars with
    | nil => rfl
    | cons v rest ih =>
      have hv : env v = "" := h v (by simp)
      simp only [getEnvOrDefaultGo, hv]
      simpa using ih fun w hw => h w (by simp [hw])
  · constructor
    · decide
    · decide

/-- Witness for C10: a string-kind lookup (nil parser) whose first variable
is set returns its value verbatim. -/
theorem c10_getEnvOrDefault_first_nonempty_witness :
    getEnvOrDefaultGo (.vStr "d") none ["X"]
      (fun v => if v = "X" then "val" else "") = .vStr "val" := by
  have h := c10_getEnvOrDefault_first_nonempty.1 (.vStr "d") none
    (fun v => if v = "X" then "val" else "") "X" [] (by decide)
  exact h.trans (by decide)

/-- **C4.** The optionality propagator terminates on every schema, cyclic
ones included: the budget `props.length + unseenWeight env seen` — finite
because the seen set prevents any token from being reprocessed — always
suffices.  And on the self-referential `Node { children: Array<Node> }`
schema the type scan terminates and sets `Node`'s `arrayElement`
(needsArrayVariant) flag to true. -/
theorem c4_propagation_fixpoint :
    (∀ (env : ObjEnv) (po : Bool) (ms : MarkSt) (props : List Property),
      (markStep env (props.length + unseenWeight env ms.seen) po ms
        props).isSome = true) ∧
    ((scanTypes nodeEnv 2 ms0 nodeTypes).map
        fun ms => (ms.det.objD nodeTok).arrayElement) = some true := by
  constructor
  · intro env po ms props
    exact markStep_enough env _ po ms props (Nat.le_refl _)
  · decide

/-- The collision machinery is idempotent once its result state is taken:
re-running it on its own output state returns the same name and state. -/
theorem resolveRenamed_idem (ctx : Ctx) (st : GenState)
    (mod name suffix : String) :
    resolveRenamed ctx (resolveRenamed ctx st mod name suffix).2
      mod name suffix = resolveRenamed ctx st mod name suffix := by
  by_cases hu : ctx.usesSharedPackages
  · simp only [resolveRenamed, hu, if_true]
    cases hlk : alookup st mod with
    | none => simp [hlk]
    | some ps =>
      cases hrn : alookup ps.renamed name with
      | some nn => simp [hlk, hrn]
      | none =>
        by_cases hn : hasName ps.names name = true
        · simp only [hlk, hrn, hn, if_true]
          have h1 : alookup (updateAt st mod fun ps =>
              { names := addName ps.names (name ++ suffix),
                renamed := ps.renamed ++ [(name, name ++ suffix)] }) mod =
              some { names := addName ps.names (name ++ suffix),
                     renamed := ps.renamed ++ [(name, name ++ suffix)] } := by
            rw [alookup_updateAt_self, hlk]
            rfl
          have h2 : alookup (ps.renamed ++ [(name, name ++ suffix)]) name =
              some (name ++ suffix) := alookup_append_of_none hrn _
          simp [h1, h2]
        · simp [hlk, hrn, hn]
  · simp [resolveRenamed, hu]

/-- **C3, counterexample.** Name resolution is not idempotent per
(token, namespace) pair when entities are registered in between: in an
empty namespace `m`, resolving `p:m:foo` yields `Foo`; after the resource
`p:m:foo` is registered (reserving `Foo` among others), resolving the same
token in the same namespace yields `FooType`. -/
theorem c3_idempotence_counterexample :
    (tokenToType ctx0 [("m", ⟨[], []⟩)] "p:m:foo").map Prod.fst =
      some "Foo" ∧
    ((scanResource [] [] 0 fooRes [("m", ⟨[], []⟩)] ms0).map
        fun x => (tokenToType ctx0 x.1 "p:m:foo").map Prod.fst) =
      some (some "FooType") ∧
    ("Foo" : String) ≠ "FooType" := by
  decide

/-- **C3, amended.** Name resolution is idempotent per (token, namespace)
pair across *consecutive* calls: a second call on the state produced by the
first returns the same identifier and the same state, because a rename, once
recorded, is looked up instead of recomputed.  (`tokenToResource` consults no
mutable state at all.)  Registrations of other entities between the calls
can, however, change the result of a token whose first resolution recorded
no rename — see the counterexample. -/
theorem c3_resolver_idempotent_consecutive :
    (∀ (ctx : Ctx) (st : GenState) (tok r : String) (st₁ : GenState),
      tokenToType ctx st tok = some (r, st₁) →
      tokenToType ctx st₁ tok = some (r, st₁)) ∧
    (∀ (ctx : Ctx) (st : GenState) (tok r : String) (st₁ : GenState),
      tokenToEnum ctx st tok = some (r, st₁) →
      tokenToEnum ctx st₁ tok = some (r, st₁)) := by
  constructor
  · intro ctx st tok r st₁ h
    simp only [tokenToType] at h ⊢
    by_cases hlen : (goSplit tok ':').length ≠ 3
    · rw [if_pos hlen] at h
      exact Option.noConfusion h
    · rw [if_neg hlen] at h ⊢
      cases hmod : tokenToPackage ctx.modToPkg tok with
      | none =>
        rw [hmod] at h
        exact Option.noConfusion h
      | some mod =>
        rw [hmod] at h
        simp only [Option.bind_eq_bind, Option.some_bind] at h ⊢
        cases hr : resolveRenamed ctx st mod
            (Title ((goSplit tok ':').getD 2 "")) "Type" with
        | mk n1 s1 =>
          rw [hr] at h
          have hidem := resolveRenamed_idem ctx st mod
            (Title ((goSplit tok ':').getD 2 "")) "Type"
          rw [hr] at hidem
          by_cases hm : mod = ctx.mod
          · rw [if_pos hm] at h
            obtain ⟨rfl, rfl⟩ := Prod.mk.injEq .. ▸ Option.some.inj h
            rw [hidem, if_pos hm]
          · rw [if_neg hm] at h
            obtain ⟨rfl, rfl⟩ := Prod.mk.injEq .. ▸ Option.some.inj h
            rw [hidem, if_neg hm]
  · intro ctx st tok r st₁ h
    simp only [tokenToEnum] at h ⊢
    by_cases hlen : (goSplit tok ':').length ≠ 3
    · rw [if_pos hlen] at h
      exact Option.noConfusion h
    · rw [if_neg hlen] at h ⊢
      cases hmod : tokenToPackage ctx.modToPkg tok with
      | none =>
        rw [hmod] at h
        exact Option.noConfusion h
      | some mod =>
        rw [hmod] at h
        simp only [Option.bind_eq_bind, Option.some_bind] at h ⊢
        cases hr : resolveRenamed ctx st mod
            (Title ((goSplit tok ':').getD 2 "")) "Enum" with
        | mk n1 s1 =>
          rw [hr] at h
          have hidem := resolveRenamed_idem ctx st mod
            (Title ((goSplit tok ':').getD 2 "")) "Enum"
          rw [hr] at hidem
          by_cases hm : mod = ctx.mod
          · rw [if_pos hm] at h
            obtain ⟨rfl, rfl⟩ := Prod.mk.injEq .. ▸ Option.some.inj h
            rw [hidem, if_pos hm]
          · rw [if_neg hm] at h
            obtain ⟨rfl, rfl⟩ := Prod.mk.injEq .. ▸ Option.some.inj h
            rw [hidem, if_neg hm]

/-- Witness for C3 (amended): a concrete consecutive re-resolution returns
the same identifier and state. -/
theorem c3_resolver_idempotent_consecutive_witness :
    tokenToType ctx0 bucketStAfter "p:m:bucket" =
      some ("BucketType", bucketStAfter) := by
  have h := c3_resolver_idempotent_consecutive.1 ctx0 bucketSt "p:m:bucket"
    "BucketType" bucketStAfter (by decide)
  exact h

theorem goTrimSuffix_append (a b : String) : goTrimSuffix (a ++ b) b = a := by
  unfold goTrimSuffix
  have hsuf : b.data.isSuffixOf (a ++ b).data = true := by
    rw [String.data_append]
    simp [List.isSuffixOf]
  rw [if_pos hsuf, String.data_append, List.length_append,
    Nat.add_sub_cancel, List.take_left]

/-- **C8, counterexample.** Optional resolution is not the optional-wrapped
form of the non-optional resolution for every schema type: for
`Array<string>` all three resolvers return the same representation at
`optional = true` as at `optional = false` — no pointer prefix and no `Ptr`
suffix appears. -/
theorem c8_optional_wrapper_counterexample :
    (plainType ctx0 [] (.arrayT .stringT) false).map Prod.fst =
      some "[]string" ∧
    (plainType ctx0 [] (.arrayT .stringT) true).map Prod.fst =
      some "[]string" ∧
    (plainType ctx0 [] (.arrayT .stringT) true).map Prod.fst ≠
      some ("*" ++ "[]string") ∧
    (inputType ctx0 [] (.arrayT .stringT) true).map Prod.fst =
      some "pulumi.StringArrayInput" ∧
    (outputType ctx0 [] (.arrayT .stringT) true).map Prod.fst =
      some "pulumi.StringArrayOutput" := by
  decide

/-- **C8, amended.** For the schema types whose resolution falls through the
type switch — the four primitive scalars, object types, and token types with
no underlying type — resolving with `optional = true` yields exactly the
optional-wrapped form of the `optional = false` resolution: `*`-prefixed for
Plain, `Ptr`-suffixed before `Input` for Input, `Ptr`-suffixed before
`Output` for Output.  Containers, resources, unions, enums-as-inputs and the
special scalars do not follow this rule (see the counterexample). -/
theorem c8_optional_wrapper_falls_through :
    ∀ (ctx : Ctx) (st : GenState) (t : SType),
      optionalFallsThrough t = true →
      (∀ r st₁, plainType ctx st t false = some (r, st₁) →
        plainType ctx st t true = some ("*" ++ r, st₁)) ∧
      (∀ r st₁, inputType ctx st t false = some (r, st₁) →
        inputType ctx st t true =
          some (goTrimSuffix r "Input" ++ "PtrInput", st₁)) ∧
      (∀ r st₁, outputType ctx st t false = some (r, st₁) →
        outputType ctx st t true =
          some (goTrimSuffix r "Output" ++ "PtrOutput", st₁)) := by
  intro ctx st t ht
  cases t with
  | boolT =>
    refine ⟨?_, ?_, ?_⟩ <;> intro r st₁ h <;>
      obtain ⟨rfl, rfl⟩ := Prod.mk.injEq .. ▸ Option.some.inj h
    · rfl
    · have hb : ("pulumi.BoolInput" : String) = "pulumi.Bool" ++ "Input" := rfl
      rw [show (inSuffix false "pulumi.Bool") = "pulumi.Bool" ++ "Input" from rfl,
        goTrimSuffix_append]
      rfl
    · rw [show (outSuffix false "pulumi.Bool") = "pulumi.Bool" ++ "Output" from rfl,
        goTrimSuffix_append]
      rfl
  | intT =>
    refine ⟨?_, ?_, ?_⟩ <;> intro r st₁ h <;>
      obtain ⟨rfl, rfl⟩ := Prod.mk.injEq .. ▸ Option.some.inj h
    · rfl
    · rw [show (inSuffix false "pulumi.Int") = "pulumi.Int" ++ "Input" from rfl,
        goTrimSuffix_append]
      rfl
    · rw [show (outSuffix false "pulumi.Int") = "pulumi.Int" ++ "Output" from rfl,
        goTrimSuffix_append]
      rfl
  | numberT =>
    refine ⟨?_, ?_, ?_⟩ <;> intro r st₁ h <;>
      obtain ⟨rfl, rfl⟩ := Prod.mk.injEq .. ▸ Option.some.inj h
    · rfl
    · rw [show (inSuffix false "pulumi.Float64") = "pulumi.Float64" ++ "Input" from rfl,
        goTrimSuffix_append]
      rfl
    · rw [show (outSuffix false "pulumi.Float64") = "pulumi.Float64" ++ "Output" from rfl,
        goTrimSuffix_append]
      rfl
  | stringT =>
    refine ⟨?_, ?_, ?_⟩ <;> intro r st₁ h <;>
      obtain ⟨rfl, rfl⟩ := Prod.mk.injEq .. ▸ Option.some.inj h
    · rfl
    · rw [show (inSuffix false "pulumi.String") = "pulumi.String" ++ "Input" from rfl,
        goTrimSuffix_append]
      rfl
    · rw [show (outSuffix false "pulumi.String") = "pulumi.String" ++ "Output" from rfl,
        goTrimSuffix_append]
      rfl
  | objectT owner tok =>
    refine ⟨?_, ?_, ?_⟩ <;> intro r st₁ h
    · cases hro : resolveObjectType ctx st owner tok with
      | none => rw [plainType, hro] at h; exact Option.noConfusion h
      | some pr =>
        obtain ⟨typ, st'⟩ := pr
        rw [plainType, hro] at h
        obtain ⟨rfl, rfl⟩ := Prod.mk.injEq .. ▸ Option.some.inj h
        rw [plainType, hro]
        rfl
    · cases hro : resolveObjectType ctx st owner tok with
      | none => rw [inputType, hro] at h; exact Option.noConfusion h
      | some pr =>
        obtain ⟨typ, st'⟩ := pr
        rw [inputType, hro] at h
        obtain ⟨rfl, rfl⟩ := Prod.mk.injEq .. ▸ Option.some.inj h
        rw [inputType, hro,
          show (inSuffix false typ) = typ ++ "Input" from rfl,
          goTrimSuffix_append]
        rfl
    · cases hro : resolveObjectType ctx st owner tok with
      | none => rw [outputType, hro] at h; exact Option.noConfusion h
      | some pr =>
        obtain ⟨typ, st'⟩ := pr
        rw [outputType, hro] at h
        obtain ⟨rfl, rfl⟩ := Prod.mk.injEq .. ▸ Option.some.inj h
        rw [outputType, hro,
          show (outSuffix false typ) = typ ++ "Output" from rfl,
          goTrimSuffix_append]
        rfl
  | tokenT tok u =>
    cases u with
    | someT und => exact absurd ht (by simp [optionalFallsThrough])
    | noneT =>
      refine ⟨?_, ?_, ?_⟩ <;> intro r st₁ h
      · cases hro : tokenToType ctx st tok with
        | none => rw [plainType, hro] at h; exact Option.noConfusion h
        | some pr =>
          obtain ⟨typ, st'⟩ := pr
          rw [plainType, hro] at h
          obtain ⟨rfl, rfl⟩ := Prod.mk.injEq .. ▸ Option.some.inj h
          rw [plainType, hro]
          rfl
      · cases hro : tokenToType ctx st tok with
        | none => rw [inputType, hro] at h; exact Option.noConfusion h
        | some pr =>
          obtain ⟨typ, st'⟩ := pr
          rw [inputType, hro] at h
          obtain ⟨rfl, rfl⟩ := Prod.mk.injEq .. ▸ Option.some.inj h
          rw [inputType, hro,
            show (inSuffix false typ) = typ ++ "Input" from rfl,
            goTrimSuffix_append]
          rfl
      · cases hro : tokenToType ctx st tok with
        | none => rw [outputType, hro] at h; exact Option.noConfusion h
        | some pr =>
          obtain ⟨typ, st'⟩ := pr
          rw [outputType, hro] at h
          obtain ⟨rfl, rfl⟩ := Prod.mk.injEq .. ▸ Option.some.inj h
          rw [outputType, hro,
            show (outSuffix false typ) = typ ++ "Output" from rfl,
            goTrimSuffix_append]
          rfl
  | archiveT => exact absurd ht (by simp [optionalFallsThrough])
  | assetT => exact absurd ht (by simp [optionalFallsThrough])
  | jsonT => exact absurd ht (by simp [optionalFallsThrough])
  | anyT => exact absurd ht (by simp [optionalFallsThrough])
  | arrayT e => exact absurd ht (by simp [optionalFallsThrough])
  | mapT e => exact absurd ht (by simp [optionalFallsThrough])
  | resourceT o tk => exact absurd ht (by simp [optionalFallsThrough])
  | enumT tk e => exact absurd ht (by simp [optionalFallsThrough])
  | unionT es => exact absurd ht (by simp [optionalFallsThrough])

/-- Witness for C8 (amended) at the string type. -/
theorem c8_optional_wrapper_falls_through_witness :
    plainType ctx0 [] .stringT true = some ("*string", []) ∧
    inputType ctx0 [] .stringT true = some ("pulumi.StringPtrInput", []) ∧
    outputType ctx0 [] .stringT true = some ("pulumi.StringPtrOutput", []) := by
  have hh := c8_optional_wrapper_falls_through ctx0 [] .stringT (by decide)
  refine ⟨?_, ?_, ?_⟩
  · exact (hh.1 "string" [] (by decide)).trans (by decide)
  · exact (hh.2.1 "pulumi.StringInput" [] (by decide)).trans (by decide)
  · exact (hh.2.2 "pulumi.StringOutput" [] (by decide)).trans (by decide)

/-- The recursive-completeness invariant of the seen set is preserved by a
propagator run. -/
theorem markStep_seenClosed {env : ObjEnv} {fuel : Nat} {po : Bool}
    {ms : MarkSt} {props : List Property} {ms' : MarkSt}
    (h : markStep env fuel po ms props = some ms')
    (hc : seenClosed env ms) : seenClosed env ms' := by
  obtain ⟨s1, d1, _, n1, _⟩ := markStep_props env fuel po ms props ms' h
  intro t ht
  by_cases hin : t ∈ ms.seen
  · rcases hc t hin with hl | hr
    · left; exact (d1 t).2 hl
    · right
      intro q hq
      exact ⟨fun tk htk => s1 ((hr q hq).1 tk htk),
             fun tk htk => s1 ((hr q hq).2 tk htk)⟩
  · exact n1 t ht hin

/-- **C9.** `scanResource` invokes the optionality propagator over both the
input properties and the output/state properties with the parent-optional
flag forced to `!IsProvider`.  Hence for every non-provider resource, every
directly object- or enum-typed property — required or not — ends up with its
pointer-variant flag set (and, via the closure invariant `seenClosed`, the
propagator descended into each such object's own properties, so the nested
marking holds recursively); for the provider resource, the property's own
required/optional flag controls the marking. -/
theorem c9_scanResource_forces_parent_optional :
    (∀ (env : ObjEnv) (ov : List (String × String)) (fuel : Nat)
       (r : Resource) (st : GenState) (ms : MarkSt)
       (out : GenState × MarkSt),
      r.isProvider = false → seenMarked ms → seenClosed env ms →
      scanResource env ov fuel r st ms = some out →
      seenMarked out.2 ∧ seenClosed env out.2 ∧
      ∀ p ∈ r.inputProperties ++ r.properties,
        (∀ tok, asObjectTok p.typ = some tok →
          (out.2.det.objD tok).ptrElement = true ∨
          (out.2.det.enumD tok).ptrElement = true) ∧
        (∀ tok, asEnumTok p.typ = some tok →
          (out.2.det.objD tok).ptrElement = true ∨
          (out.2.det.enumD tok).ptrElement = true)) ∧
    ((scanResource [] [] 1 nonProvRes [] ms0).map
        fun x => (x.2.det.objD "p:m:cfg").ptrElement) = some true ∧
    ((scanResource [] [] 1 provReqRes [] ms0).map
        fun x => (x.2.det.objD "p:m:cfg").ptrElement) = some false ∧
    ((scanResource [] [] 1 provOptRes [] ms0).map
        fun x => (x.2.det.objD "p:m:cfg").ptrElement) = some true := by
  refine ⟨?_, by decide, by decide, by decide⟩
  intro env ov fuel r st ms out hprov hm hc h
  simp only [scanResource] at h
  cases hmod : tokenToPackage ov r.token with
  | none =>
    rw [hmod] at h
    exact Option.noConfusion h
  | some mod =>
    rw [hmod] at h
    simp only [Option.bind_eq_bind, Option.some_bind] at h
    cases hrn : resourceName r with
    | none =>
      rw [hrn] at h
      exact Option.noConfusion h
    | some rn =>
      rw [hrn] at h
      simp only [Option.bind_eq_bind, Option.some_bind] at h
      rw [hprov] at h
      simp only [Bool.not_false] at h
      cases h1 : markStep env fuel true ms r.inputProperties with
      | none =>
        rw [h1] at h
        exact Option.noConfusion h
      | some ms1 =>
        rw [h1] at h
        simp only [Option.bind_eq_bind, Option.some_bind] at h
        cases h2 : markStep env fuel true ms1 r.properties with
        | none =>
          rw [h2] at h
          exact Option.noConfusion h
        | some ms2 =>
          rw [h2] at h
          have hms : ms2 = out.2 := congrArg Prod.snd (Option.some.inj h)
          obtain ⟨s1, d1, m1, _, p1⟩ :=
            markStep_props env fuel true ms r.inputProperties ms1 h1
          obtain ⟨s2, d2, m2, _, p2⟩ :=
            markStep_props env fuel true ms1 r.properties ms2 h2
          have hm1 : seenMarked ms1 := m1 hm
          have hm2 : seenMarked ms2 := m2 hm1
          have hc1 : seenClosed env ms1 := markStep_seenClosed h1 hc
          have hc2 : seenClosed env ms2 := markStep_seenClosed h2 hc1
          subst hms
          refine ⟨hm2, hc2, ?_⟩
          intro p hp
          rcases List.mem_append.mp hp with hin | hout
          · have hd := p1 rfl p hin
            exact ⟨fun tok htk => hm2 tok (s2 (hd.1 tok htk)),
                   fun tok htk => hm2 tok (s2 (hd.2 tok htk))⟩
          · have hd := p2 rfl p hout
            exact ⟨fun tok htk => hm2 tok (hd.1 tok htk),
                   fun tok htk => hm2 tok (hd.2 tok htk)⟩

theorem getEnvOrDefault_empty (d : GoValue)
    (parser : Option (String → GoValue)) (env : OsEnv) (vars : List String)
    (h : ∀ v ∈ vars, env v = "") : getEnvOrDefaultGo d parser vars env = d := by
  induction vars with
  | nil => rfl
  | cons v rest ih =>
    have hv : env v = "" := h v (by simp)
    simp only [getEnvOrDefaultGo, hv]
    simpa using ih fun w hw => h w (by simp [hw])

theorem updArg_self (a : Args) (key : String) (v : GoValue) :
    updArg a key v key = v := if_pos rfl

theorem updArg_other {a : Args} {key n : String} {v : GoValue}
    (hn : n ≠ key) : updArg a key v n = a n := if_neg hn

theorem applyConstStep_other {p : Property} {a b : Args}
    (h : applyConstStep p a = some b) {n : String}
    (hn : n ≠ Title p.name) : b n = a n := by
  simp only [applyConstStep] at h
  split at h
  · split at h
    · obtain rfl := Option.some.inj h
      exact if_neg hn
    · exact Option.noConfusion h
  · obtain rfl := Option.some.inj h
    rfl

theorem applyDefaultStep_other {env : OsEnv} {fp : String → GoValue}
    {p : Property} {a b : Args} (h : applyDefaultStep env fp p a = some b)
    {n : String} (hn : n ≠ Title p.name) : b n = a n := by
  simp only [applyDefaultStep] at h
  split at h
  · obtain rfl := Option.some.inj h
    rfl
  · rename_i dv hd
    cases hv : getDefaultValueSem dv p.typ env fp with
    | none =>
      rw [hv] at h
      exact Option.noConfusion h
    | some v =>
      rw [hv] at h
      simp only [Option.bind_eq_bind, Option.some_bind] at h
      split at h
      · by_cases hreq : p.isRequired = true
        · rw [if_pos hreq] at h
          rename_i elem he
          cases hz : enumZeroGuard elem (a (Title p.name)) with
          | none =>
            rw [hz] at h
            exact Option.noConfusion h
          | some z =>
            rw [hz] at h
            simp only [Option.bind_eq_bind, Option.some_bind] at h
            obtain rfl := Option.some.inj h
            split
            · exact if_neg hn
            · rfl
        · rw [if_neg hreq] at h
          obtain rfl := Option.some.inj h
          split
          · exact if_neg hn
          · rfl
      · obtain rfl := Option.some.inj h
        split
        · exact if_neg hn
        · rfl

theorem applyProp_other {env : OsEnv} {fp : String → GoValue} {a : Args}
    {p : Property} {a₂ : Args} (h : applyProp env fp a p = some a₂)
    {n : String} (hn : n ≠ Title p.name) : a₂ n = a n := by
  simp only [applyProp, Option.bind_eq_bind] at h
  cases hcs : applyConstStep p a with
  | none =>
    rw [hcs] at h
    exact Option.noConfusion h
  | some a₁ =>
    rw [hcs] at h
    simp only [Option.some_bind] at h
    exact (applyDefaultStep_other h hn).trans (applyConstStep_other hcs hn)

theorem foldlM_applyProp_other {env : OsEnv} {fp : String → GoValue}
    {n : String} :
    ∀ (props : List Property) (a a' : Args),
      props.foldlM (applyProp env fp) a = some a' →
      (∀ q ∈ props, n ≠ Title q.name) → a' n = a n := by
  intro props
  induction props with
  | nil =>
    intro a a' h _
    rw [List.foldlM_nil] at h
    obtain rfl := Option.some.inj h
    rfl
  | cons q rest ih =>
    intro a a' h hq
    rw [List.foldlM_cons] at h
    cases happ : applyProp env fp a q with
    | none =>
      rw [happ] at h
      exact Option.noConfusion h
    | some a₂ =>
      rw [happ] at h
      simp only [Option.bind_eq_bind, Option.some_bind] at h
      have h1 := ih a₂ a' h fun w hw => hq w (List.mem_cons_of_mem _ hw)
      exact h1.trans (applyProp_other happ (hq q (List.mem_cons_self _ _)))

/-- Locating the step of property `p` in the constant/default pass: with
pairwise-distinct field names, the final value of `p`'s field is the value
its own step produced, and that step saw `p`'s field unchanged from the
initial argument struct. -/
theorem foldlM_applyProp_at {env : OsEnv} {fp : String → GoValue} :
    ∀ (props : List Property) (a a' : Args) (p : Property),
      (props.map fun q => Title q.name).Nodup →
      props.foldlM (applyProp env fp) a = some a' →
      p ∈ props →
      ∃ b b₂ : Args, applyProp env fp b p = some b₂ ∧
        b (Title p.name) = a (Title p.name) ∧
        a' (Title p.name) = b₂ (Title p.name) := by
  intro props
  induction props with
  | nil =>
    intro a a' p _ _ hp
    exact absurd hp (List.not_mem_nil p)
  | cons q rest ih =>
    intro a a' p hnd h hp
    rw [List.foldlM_cons] at h
    cases happ : applyProp env fp a q with
    | none =>
      rw [happ] at h
      exact Option.noConfusion h
    | some a₂ =>
      rw [happ] at h
      simp only [Option.bind_eq_bind, Option.some_bind] at h
      rw [List.map_cons, List.nodup_cons] at hnd
      rcases List.mem_cons.mp hp with rfl | hmem
      · refine ⟨a, a₂, happ, rfl, ?_⟩
        refine foldlM_applyProp_other rest a₂ a' h ?_
        intro w hw hwe
        exact hnd.1 (hwe ▸ List.mem_map_of_mem _ hw)
      · obtain ⟨b, b₂, hstep, hb, ha'⟩ := ih a₂ a' p hnd.2 h hmem
        have hne : Title p.name ≠ Title q.name := by
          intro hx
          exact hnd.1 (hx ▸ List.mem_map_of_mem _ hmem)
        exact ⟨b, b₂, hstep, hb.trans (applyProp_other happ hne), ha'⟩

theorem applyProp_const_value {env : OsEnv} {fp : String → GoValue}
    {a a₂ : Args} {p : Property} {c : GoValue}
    (h : applyProp env fp a p = some a₂) (hc : p.constValue = some c)
    (hd : p.defaultValue = none) : a₂ (Title p.name) = c := by
  simp only [applyProp, Option.bind_eq_bind] at h
  cases hcs : applyConstStep p a with
  | none =>
    rw [hcs] at h
    exact Option.noConfusion h
  | some a₁ =>
    rw [hcs] at h
    simp only [Option.some_bind] at h
    simp only [applyDefaultStep, hd] at h
    obtain rfl := Option.some.inj h
    simp only [applyConstStep, hc] at hcs
    by_cases hr : primRenderable c = true
    · rw [if_pos hr] at hcs
      obtain rfl := Option.some.inj hcs
      exact if_pos rfl
    · rw [if_neg hr] at hcs
      exact Option.noConfusion hcs

theorem applyProp_default_nonenum {env : OsEnv} {fp : String → GoValue}
    {a a₂ : Args} {p : Property} {dv : DefaultValue} {v : GoValue}
    (h : applyProp env fp a p = some a₂) (hc : p.constValue = none)
    (hd : p.defaultValue = some dv) (he : asEnumElem p.typ = none)
    (hv : getDefaultValueSem dv p.typ env fp = some v) :
    a₂ (Title p.name) =
      if a (Title p.name) = .vNil then v else a (Title p.name) := by
  simp only [applyProp, Option.bind_eq_bind, applyConstStep, hc,
    Option.some_bind] at h
  simp only [applyDefaultStep, hd, hv, he, Option.bind_eq_bind,
    Option.some_bind] at h
  obtain rfl := Option.some.inj h
  by_cases hz : a (Title p.name) = GoValue.vNil
  · rw [if_pos hz, if_pos hz]
    exact if_pos rfl
  · rw [if_neg hz, if_neg hz]

/-- **C5.** In the synthesized constructor, an input property with a
constant is force-assigned that constant regardless of the supplied
argument; an input property with only `sourceEnvironmentVariables = [A, B]`
and no literal default resolves, when the supplied value is absent, to the
value of `A` if non-empty, else `B` if non-empty, else the kind-appropriate
zero value (`""` for strings; `false` and `0` shown for bool/int below,
where the zero default is reached whenever every listed variable is
empty). -/
theorem c5_const_wins_and_env_default_chain :
    (∀ (r : Resource) (args : Args) (env : OsEnv) (fp : String → GoValue)
       (p : Property) (c : GoValue) (a' : Args),
      (r.inputProperties.map fun q => Title q.name).Nodup →
      p ∈ r.inputProperties → p.constValue = some c →
      p.defaultValue = none →
      newResource r (some args) env fp = some (.ok a') →
      a' (Title p.name) = c) ∧
    (∀ (r : Resource) (args : Args) (env : OsEnv) (fp : String → GoValue)
       (p : Property) (a' : Args),
      (r.inputProperties.map fun q => Title q.name).Nodup →
      p ∈ r.inputProperties → p.constValue = none →
      p.defaultValue = some ⟨none, ["A", "B"]⟩ → p.typ = .stringT →
      args (Title p.name) = .vNil →
      newResource r (some args) env fp = some (.ok a') →
      a' (Title p.name) =
        if env "A" ≠ "" then .vStr (env "A")
        else if env "B" ≠ "" then .vStr (env "B")
        else .vStr "") ∧
    (∀ (r : Resource) (args : Args) (env : OsEnv) (fp : String → GoValue)
       (p : Property) (a' : Args) (vars : List String),
      (r.inputProperties.map fun q => Title q.name).Nodup →
      p ∈ r.inputProperties → p.constValue = none →
      p.defaultValue = some ⟨none, vars⟩ → vars ≠ [] →
      (∀ v ∈ vars, env v = "") → asEnumElem p.typ = none →
      args (Title p.name) = .vNil →
      newResource r (some args) env fp = some (.ok a') →
      a' (Title p.name) = (typDefaultParser p.typ fp).2) := by
  have hdestruct : ∀ (r : Resource) (args : Args) (env : OsEnv)
      (fp : String → GoValue) (a' : Args),
      newResource r (some args) env fp = some (.ok a') →
      r.inputProperties.foldlM (applyProp env fp) args = some a' := by
    intro r args env fp a' h
    simp only [newResource] at h
    cases hf : r.inputProperties.find? fun p =>
        !isEnumSType p.typ && p.isRequired && args (Title p.name) == .vNil with
    | some q =>
      rw [hf] at h
      exact Except.noConfusion (Option.some.inj h)
    | none =>
      rw [hf] at h
      cases hfold : r.inputProperties.foldlM (applyProp env fp) args with
      | none =>
        rw [hfold] at h
        exact Option.noConfusion h
      | some a'' =>
        rw [hfold] at h
        simp only [Option.map_some'] at h
        have ha : a'' = a' := Except.ok.inj (Option.some.inj h)
        subst ha
        rfl
  refine ⟨?_, ?_, ?_⟩
  · intro r args env fp p c a' hnd hp hc hd h
    obtain ⟨b, b₂, hstep, _, ha'⟩ :=
      foldlM_applyProp_at r.inputProperties args a' p hnd
        (hdestruct r args env fp a' h) hp
    rw [ha']
    exact applyProp_const_value hstep hc hd
  · intro r args env fp p a' hnd hp hc hd htyp hnil h
    obtain ⟨b, b₂, hstep, hb, ha'⟩ :=
      foldlM_applyProp_at r.inputProperties args a' p hnd
        (hdestruct r args env fp a' h) hp
    have he : asEnumElem p.typ = none := by rw [htyp]; rfl
    have hv : getDefaultValueSem ⟨none, ["A", "B"]⟩ p.typ env fp =
        some (getEnvOrDefaultGo (.vStr "") none ["A", "B"] env) := by
      rw [htyp]
      rfl
    rw [ha', applyProp_default_nonenum hstep hc hd he hv,
      hb, hnil, if_pos rfl]
    by_cases hA : env "A" = ""
    · by_cases hB : env "B" = ""
      · simp [getEnvOrDefaultGo, hA, hB]
      · simp [getEnvOrDefaultGo, hA, hB]
    · simp [getEnvOrDefaultGo, hA]
  · intro r args env fp p a' vars hnd hp hc hd hne hempty he hnil h
    obtain ⟨b, b₂, hstep, hb, ha'⟩ :=
      foldlM_applyProp_at r.inputProperties args a' p hnd
        (hdestruct r args env fp a' h) hp
    have hv : getDefaultValueSem ⟨none, vars⟩ p.typ env fp =
        some ((typDefaultParser p.typ fp).2) := by
      simp only [getDefaultValueSem]
      rw [if_pos hne, getEnvOrDefault_empty _ _ _ _ hempty]
    rw [ha', applyProp_default_nonenum hstep hc hd he hv, hb, hnil,
      if_pos rfl]

/-- Witness for C5: a single int-typed property with constant `5`, supplied
nil, resolves to `5`. -/
theorem c5_const_wins_and_env_default_chain_witness :
    updArg (fun _ => GoValue.vNil) (Title "size") (.vInt 5) (Title "size") =
      .vInt 5 := by
  exact c5_const_wins_and_env_default_chain.1
    ⟨"p:m:r", false, false,
      [⟨"size", .intT, false, false, some (.vInt 5), none⟩], []⟩
    (fun _ => .vNil) (fun _ => "") (fun _ => .vNil)
    ⟨"size", .intT, false, false, some (.vInt 5), none⟩ (.vInt 5)
    (updArg (fun _ => GoValue.vNil) (Title "size") (.vInt 5))
    (by decide) (List.mem_singleton.mpr rfl) rfl rfl rfl

/-- **C6.** The synthesized constructor: with a nil arguments value it fails
with the missing-required-arguments condition exactly when some input
property is required, and otherwise behaves as if an empty arguments struct
had been passed; a nil required non-enum input property fails with a
condition naming that property; and a required enum-typed input property is
compared against the enum's zero representation (`""` for string enums,
`0` for int enums) rather than nil-checked — a nil value neither fails nor
triggers the default. -/
theorem c6_constructor_validation :
    (∀ (r : Resource) (env : OsEnv) (fp : String → GoValue),
      r.inputProperties.any (·.isRequired) = true →
      newResource r none env fp = some (.error .missingRequiredArguments)) ∧
    (∀ (r : Resource) (env : OsEnv) (fp : String → GoValue),
      r.inputProperties.any (·.isRequired) = false →
      newResource r none env fp =
        newResource r (some fun _ => .vNil) env fp) ∧
    (∀ (r : Resource) (a : Args) (env : OsEnv) (fp : String → GoValue),
      (∃ p ∈ r.inputProperties, isEnumSType p.typ = false ∧
        p.isRequired = true ∧ a (Title p.name) = .vNil) →
      ∃ p ∈ r.inputProperties, isEnumSType p.typ = false ∧
        p.isRequired = true ∧ a (Title p.name) = .vNil ∧
        newResource r (some a) env fp =
          some (.error (.invalidRequiredArgument (Title p.name)))) ∧
    (∀ (tk : String) (p : Property) (a : Args) (env : OsEnv)
       (fp : String → GoValue) (dv : DefaultValue) (v : GoValue),
      p.isRequired = true → p.constValue = none →
      p.defaultValue = some dv → asEnumElem p.typ = some .stringT →
      getDefaultValueSem dv p.typ env fp = some v →
      ∃ a', newResource ⟨tk, false, false, [p], []⟩ (some a) env fp =
          some (.ok a') ∧
        a' (Title p.name) =
          (if a (Title p.name) = .vStr "" then v else a (Title p.name))) ∧
    (∀ (tk : String) (p : Property) (a : Args) (env : OsEnv)
       (fp : String → GoValue) (dv : DefaultValue) (v : GoValue),
      p.isRequired = true → p.constValue = none →
      p.defaultValue = some dv → asEnumElem p.typ = some .intT →
      getDefaultValueSem dv p.typ env fp = some v →
      ∃ a', newResource ⟨tk, false, false, [p], []⟩ (some a) env fp =
          some (.ok a') ∧
        a' (Title p.name) =
          (if a (Title p.name) = .vInt 0 then v else a (Title p.name))) := by
  have henum : ∀ (tk : String) (p : Property) (a : Args) (env : OsEnv)
      (fp : String → GoValue) (dv : DefaultValue) (v : GoValue)
      (elem : SType),
      p.isRequired = true → p.constValue = none →
      p.defaultValue = some dv → asEnumElem p.typ = some elem →
      getDefaultValueSem dv p.typ env fp = some v →
      ∀ z, enumZeroGuard elem (a (Title p.name)) = some z →
      ∃ a', newResource ⟨tk, false, false, [p], []⟩ (some a) env fp =
          some (.ok a') ∧
        a' (Title p.name) = (if z then v else a (Title p.name)) := by
    intro tk p a env fp dv v elem hreq hc hd he hv z hz
    have hen : isEnumSType p.typ = true := by
      cases hpt : p.typ <;> rw [hpt] at he <;>
        first
          | exact Option.noConfusion he
          | rfl
    have hfind : ([p].find? fun q =>
        !isEnumSType q.typ && q.isRequired && a (Title q.name) == .vNil) =
        none := by
      simp [List.find?, hen]
    have happ : applyProp env fp a p =
        some (if z then updArg a (Title p.name) v else a) := by
      simp only [applyProp, applyConstStep, hc, Option.bind_eq_bind,
        Option.some_bind, applyDefaultStep, hd, hv, he, hreq, if_pos, hz]
    refine ⟨if z then updArg a (Title p.name) v else a, ?_, ?_⟩
    · simp only [newResource, hfind]
      rw [List.foldlM_cons, happ]
      simp only [Option.bind_eq_bind, Option.some_bind, List.foldlM_nil]
      rfl
    · by_cases hzz : z
      · rw [if_pos hzz, if_pos hzz]
        exact updArg_self a _ v
      · rw [if_neg hzz, if_neg hzz]
  refine ⟨?_, ?_, ?_, ?_, ?_⟩
  · intro r env fp h
    simp [newResource, h]
  · intro r env fp h
    simp [newResource, h]
  · intro r a env fp hex
    obtain ⟨p, hp, hne, hreq, hnil⟩ := hex
    have hsome : (r.inputProperties.find? fun q =>
        !isEnumSType q.typ && q.isRequired &&
          a (Title q.name) == .vNil).isSome = true := by
      rw [List.find?_isSome]
      refine ⟨p, hp, ?_⟩
      simp [hne, hreq, hnil]
    obtain ⟨q, hq⟩ := Option.isSome_iff_exists.mp hsome
    have hqmem := List.mem_of_find?_eq_some hq
    have hqpred := List.find?_some hq
    simp only [Bool.and_eq_true, Bool.not_eq_true', beq_iff_eq] at hqpred
    refine ⟨q, hqmem, hqpred.1.1, hqpred.1.2, hqpred.2, ?_⟩
    simp only [newResource, hq]
  · intro tk p a env fp dv v hreq hc hd he hv
    obtain ⟨a', h1, h2⟩ := henum tk p a env fp dv v .stringT hreq hc hd he hv
      _ rfl
    refine ⟨a', h1, ?_⟩
    rw [h2]
    by_cases hx : a (Title p.name) = GoValue.vStr ""
    · rw [if_pos hx, if_pos (by simp [hx])]
    · rw [if_neg hx, if_neg (by simp [hx])]
  · intro tk p a env fp dv v hreq hc hd he hv
    obtain ⟨a', h1, h2⟩ := henum tk p a env fp dv v .intT hreq hc hd he hv
      _ rfl
    refine ⟨a', h1, ?_⟩
    rw [h2]
    by_cases hx : a (Title p.name) = GoValue.vInt 0
    · rw [if_pos hx, if_pos (by simp [hx])]
    · rw [if_neg hx, if_neg (by simp [hx])]

/-- Witness for C6: a resource with one required non-enum property rejects a
nil arguments value with the missing-required-arguments condition. -/
theorem c6_constructor_validation_witness :
    newResource
      ⟨"p:m:r", false, false,
        [⟨"name", .stringT, true, false, none, none⟩], []⟩
      none (fun _ => "") (fun _ => .vNil) =
      some (.error .missingRequiredArguments) := by
  exact c6_constructor_validation.1
    ⟨"p:m:r", false, false,
      [⟨"name", .stringT, true, false, none, none⟩], []⟩
    (fun _ => "") (fun _ => .vNil) (by decide)

/-- Witness for C9: applied to the concrete non-provider resource with one
required object-typed input property, scanning marks the property's type as
needing a pointer variant. -/
theorem c9_scanResource_forces_parent_optional_witness :
    ((scanResource [] [] 1 nonProvRes [] ms0).map
        fun x => ((x.2.det.objD "p:m:cfg").ptrElement ||
                  (x.2.det.enumD "p:m:cfg").ptrElement)) = some true := by
  cases hsc : scanResource [] [] 1 nonProvRes [] ms0 with
  | none =>
    have hs : (scanResource [] [] 1 nonProvRes [] ms0).isSome = true := rfl
    rw [hsc] at hs
    exact Bool.noConfusion hs
  | some x =>
    have hgen := (c9_scanResource_forces_parent_optional.1) [] [] 1
      nonProvRes [] ms0 x rfl
      (by intro t ht; exact absurd ht (List.not_mem_nil t))
      (by intro t ht; exact absurd ht (List.not_mem_nil t))
      hsc
    have hobj := (hgen.2.2 (objProp true) (by simp [nonProvRes])).1
      "p:m:cfg" rfl
    simp only [hsc, Option.map_some']
    rcases hobj with hl | hr
    · rw [hl]; simp
    · rw [hr]; simp

end PulumiGoGen
